import Mathlib

/-!
Verification development for the `little_pipelines` repository.

The Python sources are shallowly embedded as executable Lean definitions:

* `SHA256` — an executable SHA-256 (the `hashlib.sha256` primitive used by
  `_hashing.py`), over byte lists (`List Nat`, each element < 256).
* hashing (`_hashing.py`): `hash_file`, `hash_files`.
* the task / pipeline model (`_tasks.py`, `_pipeline.py`), with
  `Pipeline.execute` modelled as a fold of a per-task step function.
* the expiration policy engine (`expire.py`): `_parse_weekday`,
  `_get_next_weekday`, `_seconds_until`, `weekly`.

Files are modelled as an abstract file system `String → Option (List Nat)`,
`none` meaning the file cannot be opened/read (`OSError`/`IOError`).
Reading a file in 64 KiB chunks and folding each chunk into the hasher
digests exactly the whole byte content, so the chunking loop is modelled
as hashing the full content.
-/

namespace SHA256

/-- Word mask: arithmetic is on 32-bit words, i.e. modulo `2 ^ 32`. -/
def wmask : Nat := 4294967296

/-- Right rotation of a 32-bit word. -/
def rotr (x n : Nat) : Nat := ((x >>> n) ||| (x <<< (32 - n))) % wmask

/-- Logical right shift. -/
def shr (x n : Nat) : Nat := x >>> n

/-- Bitwise complement on 32 bits, as xor with the all-ones word. -/
def bnot (x : Nat) : Nat := x ^^^ 4294967295

def ch (x y z : Nat) : Nat := (x &&& y) ^^^ (bnot x &&& z)

def maj (x y z : Nat) : Nat := (x &&& y) ^^^ (x &&& z) ^^^ (y &&& z)

def bsig0 (x : Nat) : Nat := rotr x 2 ^^^ rotr x 13 ^^^ rotr x 22

def bsig1 (x : Nat) : Nat := rotr x 6 ^^^ rotr x 11 ^^^ rotr x 25

def ssig0 (x : Nat) : Nat := rotr x 7 ^^^ rotr x 18 ^^^ shr x 3

def ssig1 (x : Nat) : Nat := rotr x 17 ^^^ rotr x 19 ^^^ shr x 10

/-- The 64 SHA-256 round constants. -/
def K : List Nat := [
  1116352408, 1899447441, 3049323471, 3921009573, 961987163, 1508970993, 2453635748, 2870763221,
  3624381080, 310598401, 607225278, 1426881987, 1925078388, 2162078206, 2614888103, 3248222580,
  3835390401, 4022224774, 264347078, 604807628, 770255983, 1249150122, 1555081692, 1996064986,
  2554220882, 2821834349, 2952996808, 3210313671, 3336571891, 3584528711, 113926993, 338241895,
  666307205, 773529912, 1294757372, 1396182291, 1695183700, 1986661051, 2177026350, 2456956037,
  2730485921, 2820302411, 3259730800, 3345764771, 3516065817, 3600352804, 4094571909, 275423344,
  430227734, 506948616, 659060556, 883997877, 958139571, 1322822218, 1537002063, 1747873779,
  1955562222, 2024104815, 2227730452, 2361852424, 2428436474, 2756734187, 3204031479, 3329325298]

/-- The initial hash state. -/
def H0 : List Nat := [
  1779033703, 3144134277, 1013904242, 2773480762, 1359893119, 2600822924, 528734635, 1541459225]

/-- Big-endian bytes of `n`, `k` bytes wide. -/
def beBytes (k n : Nat) : List Nat :=
  match k with
  | 0 => []
  | k + 1 => beBytes k (n >>> 8) ++ [n % 256]

/-- SHA-256 message padding: append `0x80`, zero bytes, and the 64-bit
big-endian bit length, reaching a multiple of 64 bytes. -/
def pad (msg : List Nat) : List Nat :=
  let len := msg.length
  let zeros := (64 - (len + 9) % 64) % 64
  msg ++ [128] ++ List.replicate zeros 0 ++ beBytes 8 (len * 8)

/-- Combine 4 consecutive bytes into big-endian 32-bit words. -/
def toWords : List Nat → List Nat
  | b0 :: b1 :: b2 :: b3 :: rest =>
      (((b0 * 256 + b1) * 256 + b2) * 256 + b3) :: toWords rest
  | _ => []

/-- Extend the 16-word message schedule to 64 words (48 extension steps). -/
def extendW (steps : Nat) (w : List Nat) : List Nat :=
  match steps with
  | 0 => w
  | s + 1 =>
      let i := w.length
      let nw := (ssig1 (w.getD (i - 2) 0) + w.getD (i - 7) 0 +
                 ssig0 (w.getD (i - 15) 0) + w.getD (i - 16) 0) % wmask
      extendW s (w ++ [nw])

/-- One round of the compression function on state `(a,b,c,d,e,f,g,h)`. -/
def round (st : List Nat) (kw : Nat × Nat) : List Nat :=
  match st with
  | [a, b, c, d, e, f, g, h] =>
      let t1 := (h + bsig1 e + ch e f g + kw.1 + kw.2) % wmask
      let t2 := (bsig0 a + maj a b c) % wmask
      [(t1 + t2) % wmask, a, b, c, (d + t1) % wmask, e, f, g]
  | st => st

/-- Process one 64-byte block: schedule extension plus 64 rounds, then add
the result into the running state. -/
def processBlock (h : List Nat) (block : List Nat) : List Nat :=
  let w := extendW 48 (toWords block)
  let st := (K.zip w).foldl round h
  (h.zip st).map (fun p => (p.1 + p.2) % wmask)

/-- Fold all 64-byte blocks into the state (fuel-driven chunking; the fuel
is an upper bound on the number of blocks, so it is never exhausted). -/
def processBlocks (fuel : Nat) (h : List Nat) (msg : List Nat) : List Nat :=
  match fuel with
  | 0 => h
  | f + 1 =>
      match msg with
      | [] => h
      | _ => processBlocks f (processBlock h (msg.take 64)) (msg.drop 64)

def hexDigit (n : Nat) : Char :=
  if n < 10 then Char.ofNat (48 + n) else Char.ofNat (87 + n)

/-- Lower-case hex rendering of a 32-bit word, 8 digits. -/
def toHex8 (w : Nat) : List Char :=
  [hexDigit ((w >>> 28) % 16), hexDigit ((w >>> 24) % 16),
   hexDigit ((w >>> 20) % 16), hexDigit ((w >>> 16) % 16),
   hexDigit ((w >>> 12) % 16), hexDigit ((w >>> 8) % 16),
   hexDigit ((w >>> 4) % 16), hexDigit (w % 16)]

/-- Model of `hashlib.sha256(msg).hexdigest()`: the lower-case hex SHA-256 digest of
a byte string. -/
def sha256hex (msg : List Nat) : String :=
  let padded := pad msg
  let final := processBlocks (padded.length / 64 + 1) H0 padded
  String.mk (final.map toHex8).flatten

end SHA256

/-- Model of `str.encode("UTF8")` for the ASCII strings that arise here (hex digests
and the `"HASHERROR"` sentinel): each character is one byte. -/
def strBytes (s : String) : List Nat := s.data.map Char.toNat

/-! ## `_hashing.py`

Everything from here on lives in the `LP` namespace (`Task` would otherwise
collide with the Lean core type of that name). -/

namespace LP

/-- The file system: a path maps to its byte content, or to `none` when the
file does not exist or cannot be read (`OSError`/`IOError`). -/
abbrev FileSystem := String → Option (List Nat)

/-- Model of `hash_file` (`_hashing.py`): SHA-256 hex digest of the file's bytes;
on `OSError`/`IOError` it returns the `"HASHERROR"` sentinel instead of
raising. -/
def hash_file (fs : FileSystem) (filepath : String) : String :=
  match fs filepath with
  | some content => SHA256.sha256hex content
  | none => "HASHERROR"

/-- Model of `hash_files` (`_hashing.py`): concatenate each file's digest as text, in
order, and digest the UTF-8 bytes of the concatenation. -/
def hash_files (fs : FileSystem) (files : List String) : String :=
  SHA256.sha256hex (strBytes (files.foldl (fun s i => s ++ hash_file fs i) ""))

/-! ## Cached values

`diskcache` stores arbitrary Python values.  The values this engine stores
are task results (arbitrary) and hash dictionaries; `PyVal` models the
result payloads, with `PyVal.vnone` for Python `None` (what `cache.get`
also returns when a key is absent). -/

inductive PyVal
  | vnone
  | vstr (s : String)
  | vint (n : Int)
  | vlist (vs : List String)
deriving DecidableEq, Repr

/-- The `{"script": ..., "inputs": ...}` dictionary stored under the
`name + "_hashes"` key by `Pipeline._cache_result`. -/
structure HashPair where
  script : String
  inputs : String
deriving DecidableEq, Repr

/-- The pipeline's `diskcache.Cache`.  The single key space is split along
the two tags the code attaches (`"RESULTS"` on result entries keyed by the
task name, `"HASHES"` on hash entries keyed by `name + "_hashes"`); the
suffix convention keeps the two families of keys disjoint.  TTL expiry over
wall-clock time is external `diskcache` behaviour and is not modelled
(an expired entry is simply an absent one). -/
structure Cache where
  results : List (String × PyVal)
  hashes : List (String × HashPair)
deriving DecidableEq, Repr

/-- Association-list lookup (first match). -/
def alistGet {α : Type} (l : List (String × α)) (k : String) : Option α :=
  (l.find? (fun p => p.1 == k)).map (fun p => p.2)

/-- Association-list update, with Python-dict semantics: an existing key
keeps its position and gets the new value, a new key is appended at the
end. -/
def alistSet {α : Type} : List (String × α) → String → α → List (String × α)
  | [], k, v => [(k, v)]
  | p :: rest, k, v =>
      if p.1 == k then (k, v) :: rest else p :: alistSet rest k v

/-- Model of `cache.get(task_name)`: `None` when the key is absent — indistinguishable
from a stored `None`. -/
def Cache.getResult (c : Cache) (k : String) : PyVal :=
  (alistGet c.results k).getD PyVal.vnone

/-- The stored result entry, distinguishing "absent" from "stored `None`"
(used to state specification-level properties; the code itself only sees
`Cache.getResult`). -/
def Cache.resultEntry (c : Cache) (k : String) : Option PyVal :=
  alistGet c.results k

/-- Model of `cache.get(task_name + "_hashes", default=dict())` followed by
`.get("script")` / `.get("inputs")`: an absent entry behaves as an empty
dictionary whose lookups return `None`. -/
def Cache.getHashes (c : Cache) (k : String) : Option HashPair :=
  alistGet c.hashes (k ++ "_hashes")

/-- Model of `Pipeline._cache_result`: store the result under the task name (tagged
`"RESULTS"`) and the freshly computed hash pair under
`task.name + "_hashes"` (tagged `"HASHES"`). -/
def Cache.store (c : Cache) (k : String) (v : PyVal) (hp : HashPair) : Cache :=
  { results := alistSet c.results k v
    hashes := alistSet c.hashes (k ++ "_hashes") hp }

/-- Model of `cache.evict("RESULTS")`: drop every result-tagged entry (used by
`execute(force=True)`); hash entries are untouched. -/
def Cache.evictResults (c : Cache) : Cache :=
  { c with results := [] }

/-- Model of `cache.delete(key)` on a result key. -/
def Cache.deleteResult (c : Cache) (k : String) : Cache :=
  { c with results := c.results.filter (fun p => p.1 != k) }

/-! ## `_tasks.py` -/

/-- Model of `Task.if_upstream_errors`: behaviour when a declared dependency is in the
run's failure set. -/
inductive UpstreamPolicy
  | FAIL
  | SKIP
deriving DecidableEq, Repr

/-- A `Task` (`_tasks.py`).  The instrumented `run` operation registered via
`@task.process` is modelled by its behaviour: `some v` means `run()` returns
`v` (possibly `PyVal.vnone`), `none` means `run()` raises.  `script_path`
is `None` when the defining frame has no `__file__`.  `expire_results`
models the value the task's zero-argument expiration policy returns when
evaluated at store time (`None` = no TTL). -/
structure Task where
  name : String
  dependency_names : List String
  if_upstream_errors : UpstreamPolicy
  input_files : List String
  hash_inputs : Bool
  script_path : Option String
  run : Option PyVal
  expire_results : Option Int
deriving DecidableEq, Repr

/-- Model of `Task._script_hash`: `hash_file(self._script_path)`, with any exception
(in particular `open(None)` raising `TypeError`) mapped to `""`;
`hash_file` itself never raises on an unreadable path. -/
def Task.script_hash (fs : FileSystem) (t : Task) : String :=
  match t.script_path with
  | some p => hash_file fs p
  | none => ""

/-- Model of `Task._inputs_hash`: starts from `h = ""` and, when `input_files` is
non-empty (Python truthiness) and `hash_inputs` is set, rebinds
`h = hash_files(inp)` for each input in turn — so only the final iteration
survives. -/
def Task.inputs_hash (fs : FileSystem) (t : Task) : String :=
  if t.input_files ≠ [] ∧ t.hash_inputs then
    t.input_files.foldl (fun _ inp => hash_files fs [inp]) ""
  else ""

/-! ## Scheduler (`Pipeline.tasks`, built on `graphlib.TopologicalSorter`)

`Pipeline.tasks` builds the Python dict
`{task.name: task._dependency_names for task in self._tasks}` (duplicate
names silently collapse: first key position, last value) and yields
`get_task(name)` for each name of `static_order()`.  `TopologicalSorter`
also treats dependency names that are not keys as extra nodes with no
predecessors.  `static_order` is modelled as a deterministic Kahn
iteration: repeatedly emit the first remaining node all of whose
predecessors were already emitted; a step with no ready node is a cycle
(`CycleError`).  The tie order may differ from CPython's, but every
property proved here depends only on the emitted order being a
topological order of the (name-collapsed) graph. -/

/-- Python dict construction from a key/value sequence: first occurrence
fixes the key's position, the last assignment fixes its value. -/
def pyDict {α : Type} (l : List (String × α)) : List (String × α) :=
  l.foldl (fun m p => alistSet m p.1 p.2) []

/-- Add every dependency name that is not a key as a node with no
predecessors (graphlib behaviour). -/
def addMissingDeps (m : List (String × List String)) :
    List (String × List String) :=
  let keys := m.map (fun p => p.1)
  m ++ ((m.map (fun p => p.2)).flatten.filter
          (fun d => ¬ keys.contains d)).dedup.map (fun d => (d, []))

/-- Pick the first remaining node whose predecessors are all in `done`;
return it together with the other remaining nodes. -/
def pickReady (done : List String) :
    List (String × List String) →
      Option (String × List (String × List String))
  | [] => none
  | (n, ds) :: rest =>
      if ds.all (fun d => done.contains d) then some (n, rest)
      else (pickReady done rest).map (fun p => (p.1, (n, ds) :: p.2))

/-- Kahn iteration with explicit fuel (one unit per emitted node). -/
def kahn (fuel : Nat) (done : List String)
    (remaining : List (String × List String)) : Option (List String) :=
  match fuel with
  | 0 => if remaining = [] then some [] else none
  | f + 1 =>
      match remaining with
      | [] => some []
      | _ =>
          match pickReady done remaining with
          | none => none
          | some (n, rest) => (kahn f (n :: done) rest).map (fun o => n :: o)

/-- The dependency graph `Pipeline.tasks` hands to `TopologicalSorter`. -/
def depsGraph (ts : List Task) : List (String × List String) :=
  addMissingDeps (pyDict (ts.map (fun t => (t.name, t.dependency_names))))

/-- Model of `TopologicalSorter(deps).static_order()`: `none` models `CycleError`. -/
def schedule (ts : List Task) : Option (List String) :=
  let g := depsGraph ts
  kahn g.length [] g

/-- Model of `Pipeline.get_task`: dict comprehension over `_tasks`, so a duplicated
name resolves to the most recently added task; an unknown name raises
`KeyError` (`none`). -/
def get_task (ts : List Task) (name : String) : Option Task :=
  alistGet (pyDict (ts.map (fun t => (t.name, t)))) name

/-- Model of `list(pipeline.tasks)`: the scheduled order resolved to tasks.  `none`
models the fatal pre-execution errors: a dependency cycle, or a scheduled
name with no task (`KeyError` while iterating the generator). -/
def orderedTasks (ts : List Task) : Option (List Task) :=
  (schedule ts).bind (fun names => names.mapM (get_task ts))

/-! ## `Pipeline.execute` -/

/-- Which branch of the per-task body of `Pipeline.execute` fired.  The
spec's per-task state machine maps onto these as: `userSkip` =
SKIPPED_EXPLICIT, `cacheSkip` = SKIPPED_CACHED, `upstreamSkip` = the
SKIP-policy branch of `check_failed_dependencies`, `upstreamFail` =
SKIPPED_UPSTREAM_FAILED (a raised, caught `DependencyFailure`), `ranOk` =
EXECUTED, `ranErr` = FAILED. -/
inductive Outcome
  | userSkip
  | cacheSkip
  | upstreamSkip
  | upstreamFail
  | ranOk
  | ranErr
deriving DecidableEq, Repr

/-- A task's mutable run-state flags (`Task._executed`, `Task._skipped`).
They are set to `False` by the constructor and are never reset by
`execute` (the reset lines are commented out in the source). -/
structure TaskFlags where
  executed : Bool
  skipped : Bool
deriving DecidableEq, Repr

/-- The flags a freshly constructed task starts with (`__init__` sets both
`_executed` and `_skipped` to `False`); also the default `flagsOf` yields
for a task that has no flags entry. -/
def freshFlags : TaskFlags := { executed := false, skipped := false }

/-- The orchestrator state threaded through one `execute` pass.  `invoked`
records the names whose `run()` was actually called (instrumentation of
the call site, for stating "run was never invoked"); `depWarnings` records
the tasks for which the SKIP-policy branch of `check_failed_dependencies`
logged its warning. -/
structure ExecState where
  cache : Cache
  failures : List String
  flags : List (String × TaskFlags)
  outcomes : List (String × Outcome)
  invoked : List String
  depWarnings : List String
deriving DecidableEq, Repr

def ExecState.flagsOf (st : ExecState) (name : String) : TaskFlags :=
  (alistGet st.flags name).getD { executed := false, skipped := false }

def ExecState.outcomeOf (st : ExecState) (name : String) : Option Outcome :=
  alistGet st.outcomes name

/-- Model of `Pipeline.check_failed_dependencies`: the failed dependencies are the
declared dependency names that are in the run's failure set. -/
def failedDeps (failures : List String) (t : Task) : List String :=
  t.dependency_names.filter (fun d => failures.contains d)

/-- The cache-validity test of `Pipeline.execute` (lines 202–217): the
cached result is not `None`, and the stored script and inputs hashes both
equal the freshly computed ones (`None == hash` is `False` when the hashes
entry is absent). -/
def checkpointValid (fs : FileSystem) (c : Cache) (t : Task) : Bool :=
  let cachedHashes := c.getHashes t.name
  let has_same_script :=
    match cachedHashes with
    | some hp => hp.script == t.script_hash fs
    | none => false
  let has_same_inputs :=
    match cachedHashes with
    | some hp => hp.inputs == t.inputs_hash fs
    | none => false
  c.getResult t.name != PyVal.vnone && has_same_inputs && has_same_script

/-- One iteration of the task loop of `Pipeline.execute` (lines 189–242). -/
def stepTask (fs : FileSystem) (skip_tasks force_tasks : List String)
    (st : ExecState) (t : Task) : ExecState :=
  -- Handle ignored tasks
  if skip_tasks.contains t.name ∧ ¬ force_tasks.contains t.name then
    { st with
      flags := alistSet st.flags t.name { st.flagsOf t.name with skipped := true }
      outcomes := alistSet st.outcomes t.name Outcome.userSkip }
  -- Try to use cached results
  else if checkpointValid fs st.cache t then
    { st with
      flags := alistSet st.flags t.name { st.flagsOf t.name with skipped := true }
      outcomes := alistSet st.outcomes t.name Outcome.cacheSkip }
  -- Handle if upstream tasks (dependencies) failed
  else if failedDeps st.failures t ≠ [] then
    match t.if_upstream_errors with
    | UpstreamPolicy.FAIL =>
        -- DependencyFailure raised, caught by the orchestrator
        { st with
          failures := st.failures ++ [t.name]
          outcomes := alistSet st.outcomes t.name Outcome.upstreamFail }
    | UpstreamPolicy.SKIP =>
        -- warning logged, True returned: the task is marked skipped
        { st with
          flags := alistSet st.flags t.name { st.flagsOf t.name with skipped := true }
          outcomes := alistSet st.outcomes t.name Outcome.upstreamSkip
          depWarnings := st.depWarnings ++ [t.name] }
  else
    -- Execute: `run()` is invoked (the `@task.process` wrapper sets
    -- `_executed = True` only after the wrapped function returns)
    match t.run with
    | some v =>
        { st with
          cache := st.cache.store t.name v
            { script := t.script_hash fs, inputs := t.inputs_hash fs }
          flags := alistSet st.flags t.name { st.flagsOf t.name with executed := true }
          outcomes := alistSet st.outcomes t.name Outcome.ranOk
          invoked := st.invoked ++ [t.name] }
    | none =>
        { st with
          failures := st.failures ++ [t.name]
          outcomes := alistSet st.outcomes t.name Outcome.ranErr
          invoked := st.invoked ++ [t.name] }

/-- The task loop of `Pipeline.execute`. -/
def runTasks (fs : FileSystem) (skip_tasks force_tasks : List String)
    (st : ExecState) : List Task → ExecState
  | [] => st
  | t :: ts => runTasks fs skip_tasks force_tasks (stepTask fs skip_tasks force_tasks st t) ts

/-- Post-run cleanup, second pass: when `expire_results_if_none` is set,
delete every cached entry whose stored value is `None` (hash entries are
dictionaries, never `None`, so only result entries qualify). -/
def cleanupNone (c : Cache) : Cache :=
  { c with results := c.results.filter (fun p => p.2 != PyVal.vnone) }

/-- A `Pipeline` (`_pipeline.py`): the name, the `expire_results_if_none`
flag, and the added tasks in `add` order. -/
structure Pipeline where
  name : String
  expire_results_if_none : Bool
  tasks : List Task
deriving DecidableEq, Repr

/-- Model of `Pipeline.execute(force, force_tasks, skip_tasks)` on an initial cache,
file system, the process-wide `expire._on_complete_deletions` list, and the
tasks' current flags (all-`false` for freshly constructed tasks).  `none`
models a fatal pre-execution error (cycle / unresolved dependency name);
`validate_tasks` cannot fail here because every modelled task has a `run`.
On success the final orchestrator state is returned, with the post-run
cleanup (on-complete deletions, then `None`-result deletion) applied to
its cache. -/
def Pipeline.execute (p : Pipeline) (fs : FileSystem) (cache : Cache)
    (onCompleteDeletions : List String)
    (force : Bool) (force_tasks skip_tasks : List String)
    (initFlags : List (String × TaskFlags)) : Option ExecState :=
  (orderedTasks p.tasks).map (fun tasks =>
    let cache0 := if force then cache.evictResults else cache
    let st0 : ExecState :=
      { cache := cache0, failures := [], flags := initFlags,
        outcomes := [], invoked := [], depWarnings := [] }
    let st1 := runTasks fs skip_tasks force_tasks st0 tasks
    let afterOnComplete :=
      onCompleteDeletions.foldl (fun c k => c.deleteResult k) st1.cache
    { st1 with
      cache := if p.expire_results_if_none then cleanupNone afterOnComplete
               else afterOnComplete })

/-! ## `expire.py`

Datetimes are modelled at microsecond resolution (what `datetime` stores):
`day` counts days since an arbitrary Monday epoch — so `day % 7` is
Python's `date.weekday()` (Monday = 0) — and `micro` is the time of day in
microseconds. `int(td.total_seconds())` computes
`((days*86400 + seconds)*10**6 + microseconds) / 10**6` as a float and
truncates toward zero; for spans far below 2^33 seconds the float rounding
cannot cross an integer boundary, so this equals truncating integer
division, `Int.tdiv`. -/

structure DateTime where
  day : Nat
  micro : Nat
deriving DecidableEq, Repr

/-- Microseconds per day. -/
def microPerDay : Nat := 86400000000

/-- Model of `datetime.weekday()`: Monday = 0. -/
def DateTime.weekday (d : DateTime) : Nat := d.day % 7

/-- Model of `_get_midnight`: zero out the time of day. -/
def _get_midnight (base : DateTime) : DateTime := { base with micro := 0 }

/-- Chronological strict order on datetimes. -/
def dtLt (a b : DateTime) : Bool :=
  a.day < b.day || (a.day == b.day && a.micro < b.micro)

/-- Model of `min(candidates)` on datetimes (first minimum wins, as in Python). -/
def minDT : List DateTime → Option DateTime
  | [] => none
  | d :: ds => some (ds.foldl (fun m x => if dtLt x m then x else m) d)

/-- The two-letter prefixes `_parse_weekday` matches against. -/
def weekdayKeys : List String := ["mo", "tu", "we", "th", "fr", "sa", "su"]

/-- Model of `day_str.strip()`: drop leading and trailing whitespace. -/
def pyStrip (s : String) : String :=
  String.mk (((s.data.dropWhile Char.isWhitespace).reverse.dropWhile
    Char.isWhitespace).reverse)

/-- Model of `day_str.lower()` (the day names involved are ASCII). -/
def pyLower (s : String) : String := String.mk (s.data.map Char.toLower)

/-- Model of `day_str[:2]`. -/
def pyTake2 (s : String) : String := String.mk (s.data.take 2)

/-- Model of `_parse_weekday`: strip, lower-case, keep the first two characters and
look them up; an unrecognized name raises `ValueError` (`none`). -/
def _parse_weekday (day_str : String) : Option Nat :=
  let key := pyTake2 (pyLower (pyStrip day_str))
  weekdayKeys.findIdx? (fun w => w == key)

/-- One iteration of `_get_next_weekday`'s loop: `days_ahead = (target -
current) % 7` (written Nat-safely; both arguments are below 7), bumped to
7 when it is 0 (today is the target weekday), and the candidate is that
many days after today's midnight. -/
def nextCandidate (current : Nat) (todayMid : DateTime) (target : Nat) :
    DateTime :=
  let da0 := (target + 7 - current) % 7
  let da := if da0 = 0 then 7 else da0
  { todayMid with day := todayMid.day + da }

/-- Model of `_get_next_weekday`: the earliest of the per-target candidates.  An
empty tuple raises `ValueError` (`none`). -/
def _get_next_weekday (weekdays : List Nat) (today : DateTime) :
    Option DateTime :=
  match weekdays with
  | [] => none
  | _ =>
      minDT (weekdays.map (nextCandidate today.weekday (_get_midnight today)))

/-- Model of `_seconds_until(target, from_time)`:
`int((target - from_time).total_seconds())`. -/
def _seconds_until (target now : DateTime) : Int :=
  Int.tdiv (((target.day : Int) - now.day) * microPerDay
            + ((target.micro : Int) - now.micro)) 1000000

/-- The `weekly(days)` policy evaluated at `now`: parse all day names at
factory time (`ValueError` — `none` — if any fails), then seconds until
the next occurrence. -/
def weekly (days : List String) (now : DateTime) : Option Int :=
  match days.mapM _parse_weekday with
  | none => none
  | some weekday_ints =>
      match _get_next_weekday weekday_ints now with
      | none => none
      | some future_date => some (_seconds_until future_date now)

/-! Concrete fixtures for counterexamples and witnesses. -/

/-- A file system on which no path is readable. -/
def fsNone : FileSystem := fun _ => none

/-- An empty cache. -/
def cache0 : Cache := { results := [], hashes := [] }

/-- A task with no input files and no script path (both hashes are then
cheap constants), with the given name, dependencies, policy and run. -/
def mkTask (name : String) (deps : List String) (pol : UpstreamPolicy)
    (run : Option PyVal) : Task :=
  { name := name, dependency_names := deps, if_upstream_errors := pol,
    input_files := [], hash_inputs := true, script_path := none,
    run := run, expire_results := none }

/-- A default orchestrator state (only used as the `getD` fallback when
projecting a concrete successful `execute`). -/
def execDefault : ExecState :=
  { cache := cache0, failures := [], flags := [], outcomes := [],
    invoked := [], depWarnings := [] }

/-- C9 fixtures: a task whose `run` returned `None` on the previous run. -/
def taskC9 : Task := mkTask "N" [] UpstreamPolicy.FAIL (some PyVal.vnone)

def cacheC9 : Cache :=
  { results := [("N", PyVal.vnone)],
    hashes := [("N_hashes", { script := "", inputs := "" })] }

def stateC9 : ExecState := { execDefault with cache := cacheC9 }

def pipeC9 : Pipeline :=
  { name := "p", expire_results_if_none := true, tasks := [taskC9] }

def finalC9 : ExecState :=
  (pipeC9.execute fsNone cacheC9 [] false [] [] []).getD execDefault

/-- C3 fixtures: a validly cached task listed in both `skip_tasks` and
`force_tasks`. -/
def taskC3 : Task := mkTask "T" [] UpstreamPolicy.FAIL (some (PyVal.vstr "new"))

def cacheC3 : Cache :=
  { results := [("T", PyVal.vstr "old")],
    hashes := [("T_hashes", { script := "", inputs := "" })] }

def pipeC3 : Pipeline :=
  { name := "p", expire_results_if_none := true, tasks := [taskC3] }

def finalC3 : ExecState :=
  (pipeC3.execute fsNone cacheC3 [] false ["T"] ["T"] []).getD execDefault

def stateC3w : ExecState := execDefault

/-- C2 fixtures: a task whose input file and script were already
unreadable when the checkpoint was stored (the stored hashes embed the
sentinel). -/
def taskC2 : Task :=
  { name := "C", dependency_names := [],
    if_upstream_errors := UpstreamPolicy.FAIL,
    input_files := ["data.csv"], hash_inputs := true,
    script_path := some "script.py", run := some (PyVal.vstr "new"),
    expire_results := none }

def cacheC2 : Cache :=
  { results := [("C", PyVal.vstr "old")],
    hashes := [("C_hashes",
      { script := "HASHERROR",
        inputs :=
          "e588349b0d8b9978421ede5dd81258867ab1f93ead7ae40df5cb26deed0ed1e9" })] }

def stateC2 : ExecState := { execDefault with cache := cacheC2 }

/-- C2 witness fixtures: a checkpoint stored with a genuine script digest,
now that the script became unreadable. -/
def taskC2w : Task :=
  { name := "W", dependency_names := [],
    if_upstream_errors := UpstreamPolicy.FAIL, input_files := [],
    hash_inputs := true, script_path := some "s.py",
    run := some (PyVal.vstr "r"), expire_results := none }

def cacheC2w : Cache :=
  { results := [("W", PyVal.vstr "old")],
    hashes := [("W_hashes",
      { script := SHA256.sha256hex (strBytes "print(1)"), inputs := "" })] }

/-- C4 fixtures: a two-input-file task, and a change to the **first**
file's content only. -/
def fsC4a : FileSystem := fun p =>
  if p = "a.txt" then some (strBytes "Hello")
  else if p = "b.txt" then some (strBytes "from") else none

def fsC4b : FileSystem := fun p =>
  if p = "a.txt" then some (strBytes "little_pipelines")
  else if p = "b.txt" then some (strBytes "from") else none

def taskC4 : Task :=
  { name := "H", dependency_names := [],
    if_upstream_errors := UpstreamPolicy.FAIL,
    input_files := ["a.txt", "b.txt"], hash_inputs := true,
    script_path := none, run := some (PyVal.vstr "r"),
    expire_results := none }

/-- C8 fixtures: two distinct tasks sharing the name `"T"`. -/
def taskC8a : Task := mkTask "T" [] UpstreamPolicy.FAIL (some (PyVal.vstr "first"))

def taskC8b : Task := mkTask "T" [] UpstreamPolicy.FAIL (some (PyVal.vstr "second"))

def pipeC8 : Pipeline :=
  { name := "p", expire_results_if_none := false, tasks := [taskC8a, taskC8b] }

def finalC8 : ExecState :=
  (pipeC8.execute fsNone cache0 [] false [] [] []).getD execDefault

/-- C1 fixtures: A's `run` raises; B depends on A with policy FAIL but has
a valid checkpoint from an earlier run. -/
def taskC1A : Task := mkTask "A" [] UpstreamPolicy.FAIL none

def taskC1B : Task := mkTask "B" ["A"] UpstreamPolicy.FAIL (some (PyVal.vstr "bv"))

def cacheC1 : Cache :=
  { results := [("B", PyVal.vstr "old")],
    hashes := [("B_hashes", { script := "", inputs := "" })] }

def pipeC1 : Pipeline :=
  { name := "p", expire_results_if_none := false, tasks := [taskC1A, taskC1B] }

def finalC1 : ExecState :=
  (pipeC1.execute fsNone cacheC1 [] false [] [] []).getD execDefault

/-- C1 witness fixtures: as the counterexample but with no checkpoint. -/
def pipeC1w : Pipeline :=
  { name := "p", expire_results_if_none := false, tasks := [taskC1A, taskC1B] }

def finalC1w : ExecState :=
  (pipeC1w.execute fsNone cache0 [] false [] [] []).getD execDefault

/-- C6 fixtures: A's `run` raises; B depends on A with policy SKIP and has
no checkpoint. -/
def taskC6B : Task := mkTask "B" ["A"] UpstreamPolicy.SKIP (some (PyVal.vstr "bv"))

def pipeC6 : Pipeline :=
  { name := "p", expire_results_if_none := false, tasks := [taskC1A, taskC6B] }

def finalC6 : ExecState :=
  (pipeC6.execute fsNone cache0 [] false [] [] []).getD execDefault

end LP

/-- SHA-256 of the empty byte string (standard test vector). -/
theorem sha256hex_empty :
    SHA256.sha256hex [] =
      "e3b0c44298fc1c149afbf4c8996fb92427ae41e4649b934ca495991b7852b855" := by
  decide

/-- SHA-256 of `b"abc"` (standard test vector). -/
theorem sha256hex_abc :
    SHA256.sha256hex (strBytes "abc") =
      "ba7816bf8f01cfea414140de5dae2223b00361a396177a9cb410ff61f20015ad" := by
  decide

namespace LP

/-! ## Supporting lemmas -/

theorem alistGet_alistSet_self {α : Type} (l : List (String × α)) (k : String)
    (v : α) : alistGet (alistSet l k v) k = some v := by
  induction l with
  | nil => simp [alistSet, alistGet]
  | cons p rest ih =>
      by_cases h : p.1 = k
      · simp [alistSet, alistGet, h]
      · simpa [alistSet, alistGet, h] using ih

theorem alistGet_alistSet_ne {α : Type} (l : List (String × α))
    (k k' : String) (v : α) (h : k ≠ k') :
    alistGet (alistSet l k v) k' = alistGet l k' := by
  induction l with
  | nil => simp [alistSet, alistGet, h]
  | cons p rest ih =>
      by_cases hp : p.1 = k
      · simp [alistSet, alistGet, hp, h]
      · by_cases hp' : p.1 = k'
        · have hk : ¬ (k' = k) := fun hh => h hh.symm
          simp [alistSet, alistGet, hp, hp', hk]
        · simpa [alistSet, alistGet, hp, hp'] using ih

theorem appendHashes_inj {a b : String}
    (h : a ++ "_hashes" = b ++ "_hashes") : a = b := by
  have hd : a.data ++ "_hashes".data = b.data ++ "_hashes".data := by
    rw [← String.data_append, ← String.data_append, h]
  exact String.ext (List.append_cancel_right hd)

theorem flagsOf_alistSet_ne (fl : List (String × TaskFlags)) (k k' : String)
    (v : TaskFlags) (h : k ≠ k') :
    (alistGet (alistSet fl k v) k').getD { executed := false, skipped := false }
      = (alistGet fl k').getD { executed := false, skipped := false } := by
  rw [alistGet_alistSet_ne fl k k' v h]

/-! Branch characterizations of `stepTask`: under the branch's guard, the
step equals the explicit record the branch produces. -/

theorem stepTask_userSkip (fs : FileSystem) (sk fo : List String)
    (st : ExecState) (t : Task)
    (h : sk.contains t.name ∧ ¬ fo.contains t.name) :
    stepTask fs sk fo st t =
      { st with
        flags := alistSet st.flags t.name { st.flagsOf t.name with skipped := true }
        outcomes := alistSet st.outcomes t.name Outcome.userSkip } := by
  unfold stepTask
  rw [if_pos h]

theorem stepTask_cacheSkip (fs : FileSystem) (sk fo : List String)
    (st : ExecState) (t : Task)
    (h1 : ¬ (sk.contains t.name ∧ ¬ fo.contains t.name))
    (h2 : checkpointValid fs st.cache t = true) :
    stepTask fs sk fo st t =
      { st with
        flags := alistSet st.flags t.name { st.flagsOf t.name with skipped := true }
        outcomes := alistSet st.outcomes t.name Outcome.cacheSkip } := by
  unfold stepTask
  rw [if_neg h1, if_pos h2]

theorem stepTask_upstreamFail (fs : FileSystem) (sk fo : List String)
    (st : ExecState) (t : Task)
    (h1 : ¬ (sk.contains t.name ∧ ¬ fo.contains t.name))
    (h2 : checkpointValid fs st.cache t = false)
    (h3 : failedDeps st.failures t ≠ [])
    (h4 : t.if_upstream_errors = UpstreamPolicy.FAIL) :
    stepTask fs sk fo st t =
      { st with
        failures := st.failures ++ [t.name]
        outcomes := alistSet st.outcomes t.name Outcome.upstreamFail } := by
  unfold stepTask
  rw [if_neg h1, if_neg (by simp [h2]), if_pos h3, h4]

theorem stepTask_upstreamSkip (fs : FileSystem) (sk fo : List String)
    (st : ExecState) (t : Task)
    (h1 : ¬ (sk.contains t.name ∧ ¬ fo.contains t.name))
    (h2 : checkpointValid fs st.cache t = false)
    (h3 : failedDeps st.failures t ≠ [])
    (h4 : t.if_upstream_errors = UpstreamPolicy.SKIP) :
    stepTask fs sk fo st t =
      { st with
        flags := alistSet st.flags t.name { st.flagsOf t.name with skipped := true }
        outcomes := alistSet st.outcomes t.name Outcome.upstreamSkip
        depWarnings := st.depWarnings ++ [t.name] } := by
  unfold stepTask
  rw [if_neg h1, if_neg (by simp [h2]), if_pos h3, h4]

theorem stepTask_ranOk (fs : FileSystem) (sk fo : List String)
    (st : ExecState) (t : Task) (v : PyVal)
    (h1 : ¬ (sk.contains t.name ∧ ¬ fo.contains t.name))
    (h2 : checkpointValid fs st.cache t = false)
    (h3 : failedDeps st.failures t = [])
    (h4 : t.run = some v) :
    stepTask fs sk fo st t =
      { st with
        cache := st.cache.store t.name v
          { script := t.script_hash fs, inputs := t.inputs_hash fs }
        flags := alistSet st.flags t.name { st.flagsOf t.name with executed := true }
        outcomes := alistSet st.outcomes t.name Outcome.ranOk
        invoked := st.invoked ++ [t.name] } := by
  unfold stepTask
  rw [if_neg h1, if_neg (by simp [h2]), if_neg (by simp [h3]), h4]

theorem stepTask_ranErr (fs : FileSystem) (sk fo : List String)
    (st : ExecState) (t : Task)
    (h1 : ¬ (sk.contains t.name ∧ ¬ fo.contains t.name))
    (h2 : checkpointValid fs st.cache t = false)
    (h3 : failedDeps st.failures t = [])
    (h4 : t.run = none) :
    stepTask fs sk fo st t =
      { st with
        failures := st.failures ++ [t.name]
        outcomes := alistSet st.outcomes t.name Outcome.ranErr
        invoked := st.invoked ++ [t.name] } := by
  unfold stepTask
  rw [if_neg h1, if_neg (by simp [h2]), if_neg (by simp [h3]), h4]

/-! Locality: a step only touches its own task's outcome, flags and cache
keys, only ever appends to `failures` / `invoked`, and new entries of
those lists carry the stepped task's name. -/

theorem stepTask_outcomeOf_ne (fs : FileSystem) (sk fo : List String)
    (st : ExecState) (t : Task) (n : String) (h : n ≠ t.name) :
    (stepTask fs sk fo st t).outcomeOf n = st.outcomeOf n := by
  unfold stepTask
  repeat' split
  all_goals
    simp [ExecState.outcomeOf, alistGet_alistSet_ne _ _ _ _ (Ne.symm h)]

theorem stepTask_flagsOf_ne (fs : FileSystem) (sk fo : List String)
    (st : ExecState) (t : Task) (n : String) (h : n ≠ t.name) :
    (stepTask fs sk fo st t).flagsOf n = st.flagsOf n := by
  unfold stepTask
  repeat' split
  all_goals
    simp [ExecState.flagsOf, alistGet_alistSet_ne _ _ _ _ (Ne.symm h)]

theorem stepTask_failures_mono (fs : FileSystem) (sk fo : List String)
    (st : ExecState) (t : Task) (n : String) (h : n ∈ st.failures) :
    n ∈ (stepTask fs sk fo st t).failures := by
  unfold stepTask
  repeat' split
  all_goals simp [h]

theorem stepTask_failures_from (fs : FileSystem) (sk fo : List String)
    (st : ExecState) (t : Task) (n : String)
    (h : n ∈ (stepTask fs sk fo st t).failures) :
    n ∈ st.failures ∨ n = t.name := by
  revert h
  unfold stepTask
  repeat' split
  all_goals intro h
  all_goals simp at h
  all_goals tauto

theorem stepTask_invoked_from (fs : FileSystem) (sk fo : List String)
    (st : ExecState) (t : Task) (n : String)
    (h : n ∈ (stepTask fs sk fo st t).invoked) :
    n ∈ st.invoked ∨ n = t.name := by
  revert h
  unfold stepTask
  repeat' split
  all_goals intro h
  all_goals simp at h
  all_goals tauto

theorem stepTask_getResult_ne (fs : FileSystem) (sk fo : List String)
    (st : ExecState) (t : Task) (n : String) (h : n ≠ t.name) :
    (stepTask fs sk fo st t).cache.getResult n = st.cache.getResult n := by
  unfold stepTask
  repeat' split
  all_goals
    simp [Cache.getResult, Cache.store, alistGet_alistSet_ne _ _ _ _ (Ne.symm h)]

theorem stepTask_getHashes_ne (fs : FileSystem) (sk fo : List String)
    (st : ExecState) (t : Task) (n : String) (h : n ≠ t.name) :
    (stepTask fs sk fo st t).cache.getHashes n = st.cache.getHashes n := by
  have hk : t.name ++ "_hashes" ≠ n ++ "_hashes" :=
    fun hh => h (appendHashes_inj hh).symm
  unfold stepTask
  repeat' split
  all_goals
    simp [Cache.getHashes, Cache.store, alistGet_alistSet_ne _ _ _ _ hk]

theorem stepTask_checkpointValid_ne (fs : FileSystem) (sk fo : List String)
    (st : ExecState) (t u : Task) (h : u.name ≠ t.name) :
    checkpointValid fs (stepTask fs sk fo st t).cache u
      = checkpointValid fs st.cache u := by
  unfold checkpointValid
  rw [stepTask_getResult_ne fs sk fo st t u.name h,
      stepTask_getHashes_ne fs sk fo st t u.name h]

/-- Every branch of `stepTask` records an outcome for the stepped task. -/
theorem stepTask_outcomeOf_self_isSome (fs : FileSystem) (sk fo : List String)
    (st : ExecState) (t : Task) :
    (stepTask fs sk fo st t).outcomeOf t.name ≠ none := by
  unfold stepTask
  repeat' split
  all_goals
    simp [ExecState.outcomeOf, alistGet_alistSet_self]

/-! The task loop: iterated step lemmas. -/

theorem runTasks_append (fs : FileSystem) (sk fo : List String)
    (st : ExecState) (u v : List Task) :
    runTasks fs sk fo st (u ++ v)
      = runTasks fs sk fo (runTasks fs sk fo st u) v := by
  induction u generalizing st with
  | nil => rfl
  | cons t ts ih => simp [runTasks, ih]

theorem runTasks_outcomeOf_not_mem (fs : FileSystem) (sk fo : List String)
    (st : ExecState) (ts : List Task) (n : String)
    (h : n ∉ ts.map Task.name) :
    (runTasks fs sk fo st ts).outcomeOf n = st.outcomeOf n := by
  induction ts generalizing st with
  | nil => rfl
  | cons t rest ih =>
      simp only [List.map_cons, List.mem_cons, not_or] at h
      rw [runTasks, ih _ h.2, stepTask_outcomeOf_ne _ _ _ _ _ _ h.1]

theorem runTasks_flagsOf_not_mem (fs : FileSystem) (sk fo : List String)
    (st : ExecState) (ts : List Task) (n : String)
    (h : n ∉ ts.map Task.name) :
    (runTasks fs sk fo st ts).flagsOf n = st.flagsOf n := by
  induction ts generalizing st with
  | nil => rfl
  | cons t rest ih =>
      simp only [List.map_cons, List.mem_cons, not_or] at h
      rw [runTasks, ih _ h.2, stepTask_flagsOf_ne _ _ _ _ _ _ h.1]

theorem runTasks_checkpointValid_not_mem (fs : FileSystem)
    (sk fo : List String) (st : ExecState) (ts : List Task) (u : Task)
    (h : u.name ∉ ts.map Task.name) :
    checkpointValid fs (runTasks fs sk fo st ts).cache u
      = checkpointValid fs st.cache u := by
  induction ts generalizing st with
  | nil => rfl
  | cons t rest ih =>
      simp only [List.map_cons, List.mem_cons, not_or] at h
      rw [runTasks, ih _ h.2, stepTask_checkpointValid_ne _ _ _ _ _ _ h.1]

theorem runTasks_failures_mono (fs : FileSystem) (sk fo : List String)
    (st : ExecState) (ts : List Task) (n : String) (h : n ∈ st.failures) :
    n ∈ (runTasks fs sk fo st ts).failures := by
  induction ts generalizing st with
  | nil => exact h
  | cons t rest ih =>
      exact ih _ (stepTask_failures_mono fs sk fo st t n h)

theorem runTasks_failures_from (fs : FileSystem) (sk fo : List String)
    (st : ExecState) (ts : List Task) (n : String)
    (h : n ∈ (runTasks fs sk fo st ts).failures) :
    n ∈ st.failures ∨ n ∈ ts.map Task.name := by
  induction ts generalizing st with
  | nil => exact Or.inl h
  | cons t rest ih =>
      rcases ih _ h with h' | h'
      · rcases stepTask_failures_from fs sk fo st t n h' with h'' | h''
        · exact Or.inl h''
        · exact Or.inr (by simp [h''])
      · exact Or.inr (by simp [h'])

theorem runTasks_invoked_from (fs : FileSystem) (sk fo : List String)
    (st : ExecState) (ts : List Task) (n : String)
    (h : n ∈ (runTasks fs sk fo st ts).invoked) :
    n ∈ st.invoked ∨ n ∈ ts.map Task.name := by
  induction ts generalizing st with
  | nil => exact Or.inl h
  | cons t rest ih =>
      rcases ih _ h with h' | h'
      · rcases stepTask_invoked_from fs sk fo st t n h' with h'' | h''
        · exact Or.inl h''
        · exact Or.inr (by simp [h''])
      · exact Or.inr (by simp [h'])

theorem stepTask_outcomeOf_isSome_mono (fs : FileSystem) (sk fo : List String)
    (st : ExecState) (t : Task) (n : String)
    (h : st.outcomeOf n ≠ none) :
    (stepTask fs sk fo st t).outcomeOf n ≠ none := by
  by_cases hn : n = t.name
  · subst hn
    exact stepTask_outcomeOf_self_isSome fs sk fo st t
  · rw [stepTask_outcomeOf_ne _ _ _ _ _ _ hn]
    exact h

theorem runTasks_outcomeOf_isSome_mono (fs : FileSystem) (sk fo : List String)
    (st : ExecState) (ts : List Task) (n : String)
    (h : st.outcomeOf n ≠ none) :
    (runTasks fs sk fo st ts).outcomeOf n ≠ none := by
  induction ts generalizing st with
  | nil => exact h
  | cons t rest ih =>
      exact ih _ (stepTask_outcomeOf_isSome_mono fs sk fo st t n h)

/-- Every task of the processed list ends up with a recorded outcome: the
loop visits every scheduled task. -/
theorem runTasks_outcome_all (fs : FileSystem) (sk fo : List String)
    (st : ExecState) (ts : List Task) (t : Task) (h : t ∈ ts) :
    (runTasks fs sk fo st ts).outcomeOf t.name ≠ none := by
  induction ts generalizing st with
  | nil => cases h
  | cons u rest ih =>
      rcases List.mem_cons.mp h with h' | h'
      · subst h'
        rw [runTasks]
        exact runTasks_outcomeOf_isSome_mono fs sk fo _ rest t.name
          (stepTask_outcomeOf_self_isSome fs sk fo st t)
      · rw [runTasks]
        exact ih _ h'

/-! Association lists and `pyDict`. -/

theorem alistSet_of_not_mem {α : Type} (l : List (String × α)) (k : String)
    (v : α) (h : k ∉ l.map Prod.fst) : alistSet l k v = l ++ [(k, v)] := by
  induction l with
  | nil => rfl
  | cons p rest ih =>
      simp only [List.map_cons, List.mem_cons, not_or] at h
      simp [alistSet, Ne.symm h.1, ih h.2]

theorem alistGet_mem {α : Type} (l : List (String × α)) (k : String) (v : α)
    (h : alistGet l k = some v) : (k, v) ∈ l := by
  unfold alistGet at h
  rcases hf : l.find? (fun p => p.1 == k) with _ | p
  · rw [hf] at h; cases h
  · rw [hf] at h
    have hp := List.find?_some hf
    have hmem := List.mem_of_find?_eq_some hf
    have h2 : p.2 = v := by simpa using h
    have h1 : p.1 = k := by simpa using hp
    have : p = (k, v) := by
      cases p
      simp_all
    rwa [this] at hmem

theorem alistGet_of_mem_nodup {α : Type} (l : List (String × α)) (k : String)
    (v : α) (hn : (l.map Prod.fst).Nodup) (h : (k, v) ∈ l) :
    alistGet l k = some v := by
  induction l with
  | nil => cases h
  | cons p rest ih =>
      simp only [List.map_cons, List.nodup_cons] at hn
      rcases List.mem_cons.mp h with h' | h'
      · subst h'
        simp [alistGet]
      · have hk : p.1 ≠ k := by
          intro hh
          exact hn.1 (hh ▸ List.mem_map.mpr ⟨(k, v), h', rfl⟩)
        rw [alistGet, List.find?_cons_of_neg _ (by simpa using hk)]
        exact ih hn.2 h'

theorem alistSet_keys {α : Type} (l : List (String × α)) (k : String)
    (v : α) (h : k ∈ l.map Prod.fst) :
    (alistSet l k v).map Prod.fst = l.map Prod.fst := by
  induction l with
  | nil => cases h
  | cons p rest ih =>
      by_cases hp : p.1 = k
      · simp [alistSet, hp]
      · simp only [List.map_cons, List.mem_cons] at h
        rcases h with h | h
        · exact absurd h.symm hp
        · simp [alistSet, hp, ih h]

theorem alistSet_entries_subset {α : Type} (l : List (String × α))
    (k : String) (v : α) (p : String × α) (h : p ∈ alistSet l k v) :
    p ∈ l ∨ p = (k, v) := by
  induction l with
  | nil => simpa [alistSet] using h
  | cons q rest ih =>
      unfold alistSet at h
      by_cases hq : q.1 = k
      · simp only [hq, beq_self_eq_true, if_pos] at h
        rcases List.mem_cons.mp h with h' | h'
        · exact Or.inr h'
        · exact Or.inl (List.mem_cons_of_mem _ h')
      · simp only [beq_iff_eq, hq, if_neg, not_false_iff] at h
        rcases List.mem_cons.mp h with h' | h'
        · exact Or.inl (h' ▸ List.mem_cons_self _ _)
        · rcases ih h' with h'' | h''
          · exact Or.inl (List.mem_cons_of_mem _ h'')
          · exact Or.inr h''

theorem foldl_alistSet_keys_nodup {α : Type} (l : List (String × α)) :
    ∀ acc : List (String × α), (acc.map Prod.fst).Nodup →
      ((l.foldl (fun m p => alistSet m p.1 p.2) acc).map Prod.fst).Nodup := by
  induction l with
  | nil => exact fun acc h => h
  | cons p rest ih =>
      intro acc hacc
      simp only [List.foldl_cons]
      apply ih
      by_cases hmem : p.1 ∈ acc.map Prod.fst
      · rwa [alistSet_keys acc p.1 p.2 hmem]
      · rw [alistSet_of_not_mem acc p.1 p.2 hmem]
        simp only [List.map_append, List.map_cons, List.map_nil]
        refine List.Nodup.append hacc (List.nodup_singleton _) ?_
        intro a ha hb
        simp only [List.mem_singleton] at hb
        subst hb
        exact hmem ha

theorem pyDict_keys_nodup {α : Type} (l : List (String × α)) :
    ((pyDict l).map Prod.fst).Nodup :=
  foldl_alistSet_keys_nodup l [] List.nodup_nil

theorem foldl_alistSet_eq_append {α : Type} (l : List (String × α)) :
    ∀ acc : List (String × α),
      ((acc ++ l).map Prod.fst).Nodup →
      l.foldl (fun m p => alistSet m p.1 p.2) acc = acc ++ l := by
  induction l with
  | nil => intro acc _; simp
  | cons p rest ih =>
      intro acc hnd
      have hnotmem : p.1 ∉ acc.map Prod.fst := by
        intro hmem
        have : ¬ ((acc ++ p :: rest).map Prod.fst).Nodup := by
          simp only [List.map_append, List.map_cons]
          intro hh
          rcases List.nodup_append.mp hh with ⟨_, h2, h3⟩
          exact h3 hmem (by simp)
        exact this hnd
      simp only [List.foldl_cons]
      rw [alistSet_of_not_mem acc p.1 p.2 hnotmem]
      have := ih (acc ++ [(p.1, p.2)]) (by simpa using hnd)
      simpa using this

theorem pyDict_eq_self {α : Type} (l : List (String × α))
    (h : (l.map Prod.fst).Nodup) : pyDict l = l := by
  have := foldl_alistSet_eq_append l [] (by simpa using h)
  simpa [pyDict] using this

theorem foldl_alistSet_entries_subset {α : Type} (l : List (String × α)) :
    ∀ acc : List (String × α), ∀ p ∈ l.foldl (fun m q => alistSet m q.1 q.2) acc,
      p ∈ acc ∨ p ∈ l := by
  induction l with
  | nil => intro acc p hp; exact Or.inl hp
  | cons q rest ih =>
      intro acc p hp
      simp only [List.foldl_cons] at hp
      rcases ih _ p hp with h | h
      · rcases alistSet_entries_subset acc q.1 q.2 p h with h' | h'
        · exact Or.inl h'
        · exact Or.inr (by simp [h'])
      · exact Or.inr (List.mem_cons_of_mem _ h)

theorem pyDict_entries_subset {α : Type} (l : List (String × α))
    (p : String × α) (h : p ∈ pyDict l) : p ∈ l := by
  rcases foldl_alistSet_entries_subset l [] p h with h' | h'
  · cases h'
  · exact h'

/-! The Kahn iteration behind `schedule`. -/

theorem pickReady_spec (done : List String) :
    ∀ (rem : List (String × List String)) (n : String)
      (rest : List (String × List String)),
      pickReady done rem = some (n, rest) →
      ∃ pre ds post, rem = pre ++ (n, ds) :: post ∧ rest = pre ++ post ∧
        ∀ d ∈ ds, d ∈ done := by
  intro rem
  induction rem with
  | nil => intro n rest h; cases h
  | cons p rem' ih =>
      intro n rest h
      obtain ⟨pn, pds⟩ := p
      unfold pickReady at h
      by_cases hready : pds.all (fun d => done.contains d) = true
      · rw [if_pos hready] at h
        obtain ⟨hn, hrest⟩ := Prod.mk.injEq .. ▸ Option.some.injEq .. ▸ h
        refine ⟨[], pds, rem', ?_, ?_, ?_⟩
        · simp [← hn]
        · simp [← hrest]
        · intro d hd
          have := List.all_eq_true.mp hready d hd
          simpa using this
      · rw [if_neg hready] at h
        rcases ho : pickReady done rem' with _ | q
        · rw [ho] at h; cases h
        · rw [ho] at h
          obtain ⟨qn, qrest⟩ := q
          simp only [Option.map_some'] at h
          cases h
          obtain ⟨pre, ds, post, h1, h2, h3⟩ := ih n qrest ho
          exact ⟨(pn, pds) :: pre, ds, post, by simp [h1], by simp [h2], h3⟩

theorem kahn_complete :
    ∀ (f : Nat) (done : List String) (rem : List (String × List String))
      (order : List String), kahn f done rem = some order →
      ∀ p ∈ rem, p.1 ∈ order := by
  intro f
  induction f with
  | zero =>
      intro done rem order h p hp
      unfold kahn at h
      split at h
      · simp_all
      · cases h
  | succ f ih =>
      intro done rem order h p hp
      unfold kahn at h
      match rem, hp with
      | q :: rem', hp =>
        simp only at h
        rcases hpick : pickReady done (q :: rem') with _ | nr
        · rw [hpick] at h; cases h
        · rw [hpick] at h
          obtain ⟨n0, rest⟩ := nr
          replace h : (kahn f (n0 :: done) rest).map (fun o => n0 :: o)
              = some order := h
          rcases ho : kahn f (n0 :: done) rest with _ | order'
          · rw [ho] at h; cases h
          · rw [ho] at h
            have horder : order = n0 :: order' := by
              cases h; rfl
            obtain ⟨pre, ds0, post, hdec, hrest, _⟩ :=
              pickReady_spec done (q :: rem') n0 rest hpick
            subst horder
            rw [hdec] at hp
            rcases List.mem_append.mp hp with hmem | hmem
            · have : p ∈ rest := hrest ▸ List.mem_append.mpr (Or.inl hmem)
              exact List.mem_cons_of_mem _ (ih _ _ _ ho p this)
            · rcases List.mem_cons.mp hmem with hmem' | hmem'
              · subst hmem'
                exact List.mem_cons_self _ _
              · have : p ∈ rest := hrest ▸ List.mem_append.mpr (Or.inr hmem')
                exact List.mem_cons_of_mem _ (ih _ _ _ ho p this)

theorem kahn_subset :
    ∀ (f : Nat) (done : List String) (rem : List (String × List String))
      (order : List String), kahn f done rem = some order →
      ∀ n ∈ order, n ∈ rem.map Prod.fst := by
  intro f
  induction f with
  | zero =>
      intro done rem order h n hn
      unfold kahn at h
      split at h
      · cases h; cases hn
      · cases h
  | succ f ih =>
      intro done rem order h n hn
      unfold kahn at h
      match rem with
      | [] =>
          simp only at h
          cases h; cases hn
      | q :: rem' =>
        simp only at h
        rcases hpick : pickReady done (q :: rem') with _ | nr
        · rw [hpick] at h; cases h
        · rw [hpick] at h
          obtain ⟨n0, rest⟩ := nr
          replace h : (kahn f (n0 :: done) rest).map (fun o => n0 :: o)
              = some order := h
          rcases ho : kahn f (n0 :: done) rest with _ | order'
          · rw [ho] at h; cases h
          · rw [ho] at h
            have horder : order = n0 :: order' := by cases h; rfl
            obtain ⟨pre, ds0, post, hdec, hrest, _⟩ :=
              pickReady_spec done (q :: rem') n0 rest hpick
            subst horder
            rcases List.mem_cons.mp hn with hn' | hn'
            · subst hn'
              rw [hdec]
              exact List.mem_map.mpr ⟨(n, ds0), by simp, rfl⟩
            · have hsub := ih _ _ _ ho n hn'
              rw [hdec, hrest] at *
              simp only [List.map_append, List.mem_append] at hsub ⊢
              rcases hsub with hs | hs
              · exact Or.inl hs
              · exact Or.inr (by simp [hs])

theorem kahn_nodup :
    ∀ (f : Nat) (done : List String) (rem : List (String × List String))
      (order : List String), kahn f done rem = some order →
      (rem.map Prod.fst).Nodup → order.Nodup := by
  intro f
  induction f with
  | zero =>
      intro done rem order h _
      unfold kahn at h
      split at h
      · cases h; exact List.nodup_nil
      · cases h
  | succ f ih =>
      intro done rem order h hnd
      unfold kahn at h
      match rem with
      | [] => simp only at h; cases h; exact List.nodup_nil
      | q :: rem' =>
        simp only at h
        rcases hpick : pickReady done (q :: rem') with _ | nr
        · rw [hpick] at h; cases h
        · rw [hpick] at h
          obtain ⟨n0, rest⟩ := nr
          replace h : (kahn f (n0 :: done) rest).map (fun o => n0 :: o)
              = some order := h
          rcases ho : kahn f (n0 :: done) rest with _ | order'
          · rw [ho] at h; cases h
          · rw [ho] at h
            have horder : order = n0 :: order' := by cases h; rfl
            obtain ⟨pre, ds0, post, hdec, hrest, _⟩ :=
              pickReady_spec done (q :: rem') n0 rest hpick
            subst horder
            have hperm : ((q :: rem').map Prod.fst).Perm
                (n0 :: rest.map Prod.fst) := by
              rw [hdec, hrest]
              simp only [List.map_append, List.map_cons]
              exact List.perm_middle
            have hnd' : (n0 :: rest.map Prod.fst).Nodup := hperm.nodup hnd
            have hrestnd : (rest.map Prod.fst).Nodup := hnd'.of_cons
            have hn0 : n0 ∉ rest.map Prod.fst := by
              intro hmem
              exact (List.nodup_cons.mp hnd').1 hmem
            refine List.nodup_cons.mpr ⟨?_, ih _ _ _ ho hrestnd⟩
            intro hmem
            exact hn0 (kahn_subset f _ _ _ ho n0 hmem)

theorem kahn_sound :
    ∀ (f : Nat) (done : List String) (rem : List (String × List String))
      (order : List String), kahn f done rem = some order →
      (rem.map Prod.fst).Nodup →
      ∀ (n : String) (ds : List String), (n, ds) ∈ rem → ∀ d ∈ ds,
        d ∈ done ∨ ∃ u v, order = u ++ n :: v ∧ d ∈ u := by
  intro f
  induction f with
  | zero =>
      intro done rem order h _ n ds hmem d _
      unfold kahn at h
      split at h
      · simp_all
      · cases h
  | succ f ih =>
      intro done rem order h hnd n ds hmem d hd
      unfold kahn at h
      match rem, hmem with
      | q :: rem', hmem =>
        simp only at h
        rcases hpick : pickReady done (q :: rem') with _ | nr
        · rw [hpick] at h; cases h
        · rw [hpick] at h
          obtain ⟨n0, rest⟩ := nr
          replace h : (kahn f (n0 :: done) rest).map (fun o => n0 :: o)
              = some order := h
          rcases ho : kahn f (n0 :: done) rest with _ | order'
          · rw [ho] at h; cases h
          · rw [ho] at h
            have horder : order = n0 :: order' := by cases h; rfl
            obtain ⟨pre, ds0, post, hdec, hrest, hready⟩ :=
              pickReady_spec done (q :: rem') n0 rest hpick
            subst horder
            have hperm : ((q :: rem').map Prod.fst).Perm
                (n0 :: rest.map Prod.fst) := by
              rw [hdec, hrest]
              simp only [List.map_append, List.map_cons]
              exact List.perm_middle
            have hnd' : (n0 :: rest.map Prod.fst).Nodup := hperm.nodup hnd
            have hrestnd : (rest.map Prod.fst).Nodup := hnd'.of_cons
            rw [hdec] at hmem
            have hcase : (n, ds) = (n0, ds0) ∨ (n, ds) ∈ rest := by
              rcases List.mem_append.mp hmem with hm | hm
              · exact Or.inr (hrest ▸ List.mem_append.mpr (Or.inl hm))
              · rcases List.mem_cons.mp hm with hm' | hm'
                · exact Or.inl hm'
                · exact Or.inr (hrest ▸ List.mem_append.mpr (Or.inr hm'))
            rcases hcase with hc | hc
            · obtain ⟨hn, hds⟩ := Prod.mk.injEq .. ▸ hc
              subst hds
              exact Or.inl (hready d hd)
            · rcases ih _ _ _ ho hrestnd n ds hc d hd with hdone | hfound
              · rcases List.mem_cons.mp hdone with hd0 | hd0
                · subst hd0
                  have hn : n ∈ order' :=
                    kahn_complete f _ _ _ ho (n, ds) hc
                  obtain ⟨u', v', huv⟩ := List.append_of_mem hn
                  exact Or.inr ⟨d :: u', v', by simp [huv], by simp⟩
                · exact Or.inl hd0
              · obtain ⟨u, v, huv, hdu⟩ := hfound
                exact Or.inr ⟨n0 :: u, v, by simp [huv], List.mem_cons_of_mem _ hdu⟩

/-! More step-level lemmas. -/

theorem stepTask_depWarnings_mono (fs : FileSystem) (sk fo : List String)
    (st : ExecState) (t : Task) (n : String) (h : n ∈ st.depWarnings) :
    n ∈ (stepTask fs sk fo st t).depWarnings := by
  unfold stepTask
  repeat' split
  all_goals simp [h]

theorem runTasks_depWarnings_mono (fs : FileSystem) (sk fo : List String)
    (st : ExecState) (ts : List Task) (n : String) (h : n ∈ st.depWarnings) :
    n ∈ (runTasks fs sk fo st ts).depWarnings := by
  induction ts generalizing st with
  | nil => exact h
  | cons t rest ih =>
      exact ih _ (stepTask_depWarnings_mono fs sk fo st t n h)

theorem getD_alistSet_self {α : Type} (l : List (String × α)) (k : String)
    (v d : α) : (alistGet (alistSet l k v) k).getD d = v := by
  rw [alistGet_alistSet_self]
  rfl

/-- Outcome inversion: when a task's own step records a failing outcome
(`ranErr` or `upstreamFail`), that step appended the task's name to the
failure set and left the task's flags untouched. -/
theorem stepTask_fail_inv (fs : FileSystem) (sk fo : List String)
    (st : ExecState) (t : Task) (o : Outcome)
    (h : (stepTask fs sk fo st t).outcomeOf t.name = some o)
    (ho : o = Outcome.ranErr ∨ o = Outcome.upstreamFail) :
    (stepTask fs sk fo st t).failures = st.failures ++ [t.name] ∧
      (stepTask fs sk fo st t).flagsOf t.name = st.flagsOf t.name := by
  revert h
  unfold stepTask
  repeat' split
  all_goals intro h
  all_goals simp [ExecState.outcomeOf, alistGet_alistSet_self] at h
  all_goals subst h
  all_goals first
    | exact ⟨rfl, rfl⟩
    | (rcases ho with ho | ho <;> cases ho)

/-- Outcome inversion: a recorded skip outcome leaves `failures` unchanged
and sets the skipped flag. -/
theorem stepTask_skip_inv (fs : FileSystem) (sk fo : List String)
    (st : ExecState) (t : Task) (o : Outcome)
    (h : (stepTask fs sk fo st t).outcomeOf t.name = some o)
    (ho : o = Outcome.userSkip ∨ o = Outcome.cacheSkip ∨ o = Outcome.upstreamSkip) :
    (stepTask fs sk fo st t).failures = st.failures ∧
      (stepTask fs sk fo st t).flagsOf t.name
        = { st.flagsOf t.name with skipped := true } := by
  revert h
  unfold stepTask
  repeat' split
  all_goals intro h
  all_goals simp [ExecState.outcomeOf, alistGet_alistSet_self] at h
  all_goals subst h
  all_goals first
    | exact ⟨rfl, getD_alistSet_self _ _ _ _⟩
    | (rcases ho with ho | ho | ho <;> cases ho)

/-- A task's own step changes its flags in one of three ways: not at all,
setting `skipped`, or setting `executed`. -/
theorem stepTask_flags_shape (fs : FileSystem) (sk fo : List String)
    (st : ExecState) (t : Task) :
    (stepTask fs sk fo st t).flagsOf t.name = st.flagsOf t.name ∨
      (stepTask fs sk fo st t).flagsOf t.name
        = { st.flagsOf t.name with skipped := true } ∨
      (stepTask fs sk fo st t).flagsOf t.name
        = { st.flagsOf t.name with executed := true } := by
  unfold stepTask
  repeat' split
  all_goals
    simp [ExecState.flagsOf, alistGet_alistSet_self]

theorem failedDeps_ne_nil (failures : List String) (t : Task) (d : String)
    (hd : d ∈ t.dependency_names) (hf : d ∈ failures) :
    failedDeps failures t ≠ [] := by
  apply List.ne_nil_of_mem (a := d)
  unfold failedDeps
  rw [List.mem_filter]
  exact ⟨hd, by simpa using hf⟩

/-! Scheduler glue. -/

theorem map_fst_pairNil (l : List String) :
    (l.map (fun d => (d, ([] : List String)))).map Prod.fst = l := by
  induction l with
  | nil => rfl
  | cons a l ih => simp [ih]

theorem depsGraph_keys_nodup (ts : List Task) :
    ((depsGraph ts).map Prod.fst).Nodup := by
  unfold depsGraph addMissingDeps
  set m := pyDict (ts.map (fun t => (t.name, t.dependency_names))) with hm
  rw [List.map_append, map_fst_pairNil]
  refine List.Nodup.append (pyDict_keys_nodup _) (List.nodup_dedup _) ?_
  intro a ha hb
  have hb' := List.mem_dedup.mp hb
  rw [List.mem_filter] at hb'
  have hno := hb'.2
  simp only [decide_not, Bool.not_eq_true', decide_eq_false_iff_not] at hno
  apply hno
  simpa [List.elem_iff] using ha

theorem depsGraph_mem (ts : List Task) (hN : (ts.map Task.name).Nodup)
    (t : Task) (ht : t ∈ ts) :
    (t.name, t.dependency_names) ∈ depsGraph ts := by
  unfold depsGraph addMissingDeps
  apply List.mem_append_left
  rw [pyDict_eq_self]
  · exact List.mem_map.mpr ⟨t, ht, rfl⟩
  · simpa [List.map_map, Function.comp] using hN

theorem get_task_eq (ts : List Task) (hN : (ts.map Task.name).Nodup)
    (t : Task) (ht : t ∈ ts) : get_task ts t.name = some t := by
  unfold get_task
  rw [pyDict_eq_self _ (by simpa [List.map_map, Function.comp] using hN)]
  exact alistGet_of_mem_nodup _ _ _
    (by simpa [List.map_map, Function.comp] using hN)
    (List.mem_map.mpr ⟨t, ht, rfl⟩)

theorem get_task_name (ts : List Task) (n : String) (t : Task)
    (h : get_task ts n = some t) : t.name = n ∧ t ∈ ts := by
  unfold get_task at h
  have hmem := pyDict_entries_subset _ _ (alistGet_mem _ _ _ h)
  obtain ⟨t', ht', heq⟩ := List.mem_map.mp hmem
  obtain ⟨h1, h2⟩ := Prod.mk.injEq .. ▸ heq
  subst h2
  exact ⟨h1, ht'⟩

theorem mapM_get_task_names (ts : List Task) :
    ∀ (names : List String) (resolved : List Task),
      names.mapM (get_task ts) = some resolved →
      resolved.map Task.name = names := by
  intro names
  induction names with
  | nil =>
      intro resolved h
      simp only [List.mapM_nil, Option.pure_def, Option.some.injEq] at h
      simp [← h]
  | cons n rest ih =>
      intro resolved h
      rw [List.mapM_cons] at h
      simp only [Option.pure_def, Option.bind_eq_bind, Option.bind_eq_some] at h
      obtain ⟨x, hx, l', hl', hres⟩ := h
      have hres' : x :: l' = resolved := by injection hres
      subst hres'
      simp only [List.map_cons]
      rw [ih l' hl', (get_task_name ts n x hx).1]

theorem mapM_get_task_decomp (ts : List Task) (u : List String) (n : String)
    (v : List String) (L : List Task)
    (h : (u ++ n :: v).mapM (get_task ts) = some L) :
    ∃ Lu x Lv, u.mapM (get_task ts) = some Lu ∧ get_task ts n = some x ∧
      v.mapM (get_task ts) = some Lv ∧ L = Lu ++ x :: Lv := by
  induction u generalizing L with
  | nil =>
      simp only [List.nil_append, List.mapM_cons, Option.pure_def,
        Option.bind_eq_bind, Option.bind_eq_some] at h
      obtain ⟨x, hx, l', hl', hres⟩ := h
      have hres' : x :: l' = L := by injection hres
      exact ⟨[], x, l', rfl, hx, hl', by simp [← hres']⟩
  | cons a u' ih =>
      simp only [List.cons_append, List.mapM_cons, Option.pure_def,
        Option.bind_eq_bind, Option.bind_eq_some] at h
      obtain ⟨x0, hx0, l', hl', hres⟩ := h
      have hres' : x0 :: l' = L := by injection hres
      obtain ⟨Lu, x, Lv, h1, h2, h3, h4⟩ := ih l' hl'
      refine ⟨x0 :: Lu, x, Lv, ?_, h2, h3, by simp [← hres', h4]⟩
      rw [List.mapM_cons, hx0, h1]
      rfl

/-! Scenario lemmas about a whole `execute` pass. -/

/-- Every added task is visited: after a successful `execute`, every task of
the pipeline has a recorded outcome (one task's failure never prevents the
loop from reaching the others). -/
theorem execute_visits_all (p : Pipeline) (fs : FileSystem) (cache : Cache)
    (onC : List String) (force : Bool) (fo sk : List String)
    (initFl : List (String × TaskFlags)) (final : ExecState)
    (hN : (p.tasks.map Task.name).Nodup)
    (hexec : p.execute fs cache onC force fo sk initFl = some final)
    (t : Task) (ht : t ∈ p.tasks) : final.outcomeOf t.name ≠ none := by
  obtain ⟨tlist, htl, hfin⟩ := Option.map_eq_some'.mp hexec
  obtain ⟨order, hsch, hmapM⟩ := Option.bind_eq_some.mp htl
  have hkahn : kahn (depsGraph p.tasks).length [] (depsGraph p.tasks)
      = some order := hsch
  have hmem : t.name ∈ order :=
    kahn_complete _ _ _ _ hkahn (t.name, t.dependency_names)
      (depsGraph_mem p.tasks hN t ht)
  have hnames : tlist.map Task.name = order :=
    mapM_get_task_names p.tasks order tlist hmapM
  rw [← hnames] at hmem
  obtain ⟨x, hx, hxname⟩ := List.mem_map.mp hmem
  have := runTasks_outcome_all fs sk fo
    { cache := if force then cache.evictResults else cache, failures := [],
      flags := initFl, outcomes := [], invoked := [], depWarnings := [] }
    tlist x hx
  rw [← hfin, ← hxname]
  exact this

/-- The heart of the upstream-failure behaviour: in a successful `execute`
over distinctly named tasks, if some declared dependency of `B` ended the
run with outcome `ranErr` (its `run` raised), and `B` was neither
explicitly skipped nor validly cached, then `B`'s own branch is decided by
its `if_upstream_errors` policy: FAIL raises a caught `DependencyFailure`
(B joins the failure set, its flags untouched, `run` never invoked); SKIP
logs a dependency warning and marks B skipped without invoking `run` and
without adding it to the failure set. -/
theorem execute_upstream_blocked (p : Pipeline) (fs : FileSystem)
    (cache : Cache) (onC : List String) (force : Bool) (fo sk : List String)
    (initFl : List (String × TaskFlags)) (final : ExecState)
    (B : Task) (aname : String)
    (hN : (p.tasks.map Task.name).Nodup)
    (hB : B ∈ p.tasks) (hdep : aname ∈ B.dependency_names)
    (hexec : p.execute fs cache onC force fo sk initFl = some final)
    (hAfail : final.outcomeOf aname = some Outcome.ranErr)
    (hskip : ¬ (B.name ∈ sk ∧ B.name ∉ fo))
    (hcv : checkpointValid fs (if force then cache.evictResults else cache) B
      = false) :
    (B.if_upstream_errors = UpstreamPolicy.FAIL →
      final.outcomeOf B.name = some Outcome.upstreamFail ∧
      B.name ∈ final.failures ∧
      B.name ∉ final.invoked ∧
      final.flagsOf B.name = (alistGet initFl B.name).getD freshFlags) ∧
    (B.if_upstream_errors = UpstreamPolicy.SKIP →
      final.outcomeOf B.name = some Outcome.upstreamSkip ∧
      B.name ∉ final.failures ∧
      B.name ∉ final.invoked ∧
      B.name ∈ final.depWarnings ∧
      final.flagsOf B.name
        = { (alistGet initFl B.name).getD freshFlags with skipped := true }) := by
  obtain ⟨tlist, htl, hfin⟩ := Option.map_eq_some'.mp hexec
  obtain ⟨order, hsch, hmapM⟩ := Option.bind_eq_some.mp htl
  have hkahn : kahn (depsGraph p.tasks).length [] (depsGraph p.tasks)
      = some order := hsch
  have hgnd := depsGraph_keys_nodup p.tasks
  -- A's name appears strictly before B's name in the scheduled order
  have hsound := kahn_sound _ _ _ _ hkahn hgnd B.name B.dependency_names
    (depsGraph_mem p.tasks hN B hB) aname hdep
  rcases hsound with habs | ⟨u, v, horder, haneu⟩
  · cases habs
  have hond : order.Nodup := kahn_nodup _ _ _ _ hkahn hgnd
  -- resolve the order to tasks
  rw [horder] at hmapM
  obtain ⟨Lu, X, Lv, hLu, hX, hLv, htlist⟩ :=
    mapM_get_task_decomp p.tasks u B.name v tlist hmapM
  have hXB : B = X := by
    have h := get_task_eq p.tasks hN B hB
    rw [h] at hX
    exact Option.some.inj hX
  subst hXB
  have hLuN : Lu.map Task.name = u := mapM_get_task_names p.tasks u Lu hLu
  have hLvN : Lv.map Task.name = v := mapM_get_task_names p.tasks v Lv hLv
  -- name disjointness facts from Nodup of the order
  have hond' : (B.name :: (u ++ v)).Nodup :=
    (List.perm_middle).nodup (horder ▸ hond)
  have hBnotuv : B.name ∉ u ++ v := (List.nodup_cons.mp hond').1
  have hBnotu : B.name ∉ u := fun h => hBnotuv (List.mem_append.mpr (Or.inl h))
  have hBnotv : B.name ∉ v := fun h => hBnotuv (List.mem_append.mpr (Or.inr h))
  have huvnd : (u ++ v).Nodup := (List.nodup_cons.mp hond').2
  obtain ⟨hund, hvnd, hdisj⟩ := List.nodup_append.mp huvnd
  have hanotv : aname ∉ v := hdisj haneu
  have hanB : aname ≠ B.name := fun h => hBnotu (h ▸ haneu)
  -- locate A's task inside Lu
  have haneLu : aname ∈ Lu.map Task.name := hLuN ▸ haneu
  obtain ⟨A', hA'mem, hA'name⟩ := List.mem_map.mp haneLu
  obtain ⟨Lu1, Lu2, hLu12⟩ := List.append_of_mem hA'mem
  -- aname appears only at A's position
  have huN : Lu1.map Task.name ++ aname :: Lu2.map Task.name = u := by
    rw [← hLuN, hLu12]
    simp [hA'name]
  have hund2 : (aname :: (Lu1.map Task.name ++ Lu2.map Task.name)).Nodup :=
    (List.perm_middle).nodup (huN ▸ hund)
  have hanot12 : aname ∉ Lu1.map Task.name ++ Lu2.map Task.name :=
    (List.nodup_cons.mp hund2).1
  have hanot1 : aname ∉ Lu1.map Task.name :=
    fun h => hanot12 (List.mem_append.mpr (Or.inl h))
  have hanot2 : aname ∉ Lu2.map Task.name :=
    fun h => hanot12 (List.mem_append.mpr (Or.inr h))
  -- abbreviations for the intermediate states
  have hst0 : ∃ st0 : ExecState, st0 =
      { cache := if force then cache.evictResults else cache, failures := [],
        flags := initFl, outcomes := [], invoked := [], depWarnings := [] } :=
    ⟨_, rfl⟩
  obtain ⟨st0, hst0⟩ := hst0
  have hfout : final.outcomes = (runTasks fs sk fo st0 tlist).outcomes := by
    rw [← hfin, hst0]
  have hffail : final.failures = (runTasks fs sk fo st0 tlist).failures := by
    rw [← hfin, hst0]
  have hfinv : final.invoked = (runTasks fs sk fo st0 tlist).invoked := by
    rw [← hfin, hst0]
  have hfflags : final.flags = (runTasks fs sk fo st0 tlist).flags := by
    rw [← hfin, hst0]
  have hfwarn : final.depWarnings
      = (runTasks fs sk fo st0 tlist).depWarnings := by
    rw [← hfin, hst0]
  have hst0fail : st0.failures = [] := by rw [hst0]
  have hst0inv : st0.invoked = [] := by rw [hst0]
  have hst0cache : st0.cache = (if force then cache.evictResults else cache) := by
    rw [hst0]
  have hst0flags : st0.flags = initFl := by rw [hst0]
  -- decompositions of the loop
  have hst1 : runTasks fs sk fo st0 tlist
      = runTasks fs sk fo (stepTask fs sk fo (runTasks fs sk fo st0 Lu) B) Lv := by
    rw [htlist, runTasks_append, runTasks]
  have hpre2 : runTasks fs sk fo st0 Lu
      = runTasks fs sk fo
          (stepTask fs sk fo (runTasks fs sk fo st0 Lu1) A') Lu2 := by
    rw [hLu12, show (Lu1 ++ A' :: Lu2) = Lu1 ++ (A' :: Lu2) from by simp,
      runTasks_append, runTasks]
  have hstAdecomp : runTasks fs sk fo st0 tlist
      = runTasks fs sk fo
          (stepTask fs sk fo (runTasks fs sk fo st0 Lu1) A') (Lu2 ++ B :: Lv) := by
    rw [htlist, hLu12,
      show ((Lu1 ++ A' :: Lu2) ++ B :: Lv) = Lu1 ++ (A' :: (Lu2 ++ B :: Lv))
        from by simp,
      runTasks_append, runTasks]
  -- A's step really was the ranErr branch, so aname is in pre-B failures
  have hAnot : aname ∉ (Lu2 ++ B :: Lv).map Task.name := by
    intro h
    simp only [List.map_append, List.map_cons, List.mem_append,
      List.mem_cons] at h
    rcases h with h | h | h
    · exact hanot2 h
    · exact hanB h
    · exact hanotv (hLvN ▸ h)
  have hAstep : (stepTask fs sk fo (runTasks fs sk fo st0 Lu1) A').outcomeOf
      aname = some Outcome.ranErr := by
    have h1 : final.outcomeOf aname
        = (runTasks fs sk fo st0 tlist).outcomeOf aname := by
      unfold ExecState.outcomeOf
      rw [hfout]
    rw [h1, hstAdecomp, runTasks_outcomeOf_not_mem _ _ _ _ _ _ hAnot] at hAfail
    exact hAfail
  have hAfailmem : aname ∈
      (stepTask fs sk fo (runTasks fs sk fo st0 Lu1) A').failures := by
    rw [← hA'name] at hAstep
    have hinv := stepTask_fail_inv fs sk fo (runTasks fs sk fo st0 Lu1) A'
      Outcome.ranErr hAstep (Or.inl rfl)
    rw [hinv.1]
    simp [hA'name]
  have hprefail : aname ∈ (runTasks fs sk fo st0 Lu).failures := by
    rw [hpre2]
    exact runTasks_failures_mono _ _ _ _ _ _ hAfailmem
  have hfd : failedDeps (runTasks fs sk fo st0 Lu).failures B ≠ [] :=
    failedDeps_ne_nil _ B aname hdep hprefail
  have hskip' : ¬ ((sk.contains B.name = true) ∧ ¬ (fo.contains B.name = true)) := by
    intro hc
    exact hskip ⟨by simpa [List.elem_iff] using hc.1,
      by simpa [List.elem_iff] using hc.2⟩
  have hcv' : checkpointValid fs (runTasks fs sk fo st0 Lu).cache B = false := by
    rw [runTasks_checkpointValid_not_mem fs sk fo st0 Lu B
      (by rw [hLuN]; exact hBnotu), hst0cache]
    exact hcv
  have hpreinv : B.name ∉ (runTasks fs sk fo st0 Lu).invoked := by
    intro hmem
    rcases runTasks_invoked_from fs sk fo st0 Lu B.name hmem with h' | h'
    · rw [hst0inv] at h'
      cases h'
    · exact hBnotu (by rw [← hLuN]; exact h')
  have hprefailB : B.name ∉ (runTasks fs sk fo st0 Lu).failures := by
    intro hmem
    rcases runTasks_failures_from fs sk fo st0 Lu B.name hmem with h' | h'
    · rw [hst0fail] at h'
      cases h'
    · exact hBnotu (by rw [← hLuN]; exact h')
  have hpreflags : (runTasks fs sk fo st0 Lu).flagsOf B.name
      = (alistGet initFl B.name).getD freshFlags := by
    rw [runTasks_flagsOf_not_mem fs sk fo st0 Lu B.name
      (by rw [hLuN]; exact hBnotu)]
    unfold ExecState.flagsOf
    rw [hst0flags]
    rfl
  constructor
  · -- FAIL policy
    intro hpol
    have hstBeq := stepTask_upstreamFail fs sk fo (runTasks fs sk fo st0 Lu) B
      hskip' hcv' hfd hpol
    refine ⟨?_, ?_, ?_, ?_⟩
    · have h1 : final.outcomeOf B.name
          = (runTasks fs sk fo st0 tlist).outcomeOf B.name := by
        unfold ExecState.outcomeOf
        rw [hfout]
      rw [h1, hst1,
        runTasks_outcomeOf_not_mem fs sk fo _ Lv B.name
          (by rw [hLvN]; exact hBnotv),
        hstBeq]
      unfold ExecState.outcomeOf
      simp [alistGet_alistSet_self]
    · rw [hffail, hst1]
      apply runTasks_failures_mono
      rw [hstBeq]
      simp
    · intro hmem
      rw [hfinv, hst1] at hmem
      rcases runTasks_invoked_from fs sk fo _ Lv B.name hmem with h | h
      · rw [hstBeq] at h
        exact hpreinv h
      · exact hBnotv (by rw [← hLvN]; exact h)
    · have h1 : final.flagsOf B.name
          = (runTasks fs sk fo st0 tlist).flagsOf B.name := by
        unfold ExecState.flagsOf
        rw [hfflags]
      rw [h1, hst1,
        runTasks_flagsOf_not_mem fs sk fo _ Lv B.name
          (by rw [hLvN]; exact hBnotv),
        hstBeq]
      exact hpreflags
  · -- SKIP policy
    intro hpol
    have hstBeq := stepTask_upstreamSkip fs sk fo (runTasks fs sk fo st0 Lu) B
      hskip' hcv' hfd hpol
    refine ⟨?_, ?_, ?_, ?_, ?_⟩
    · have h1 : final.outcomeOf B.name
          = (runTasks fs sk fo st0 tlist).outcomeOf B.name := by
        unfold ExecState.outcomeOf
        rw [hfout]
      rw [h1, hst1,
        runTasks_outcomeOf_not_mem fs sk fo _ Lv B.name
          (by rw [hLvN]; exact hBnotv),
        hstBeq]
      unfold ExecState.outcomeOf
      simp [alistGet_alistSet_self]
    · intro hmem
      rw [hffail, hst1] at hmem
      rcases runTasks_failures_from fs sk fo _ Lv B.name hmem with h | h
      · rw [hstBeq] at h
        exact hprefailB h
      · exact hBnotv (by rw [← hLvN]; exact h)
    · intro hmem
      rw [hfinv, hst1] at hmem
      rcases runTasks_invoked_from fs sk fo _ Lv B.name hmem with h | h
      · rw [hstBeq] at h
        exact hpreinv h
      · exact hBnotv (by rw [← hLvN]; exact h)
    · rw [hfwarn, hst1]
      apply runTasks_depWarnings_mono
      rw [hstBeq]
      simp
    · have h1 : final.flagsOf B.name
          = (runTasks fs sk fo st0 tlist).flagsOf B.name := by
        unfold ExecState.flagsOf
        rw [hfflags]
      rw [h1, hst1,
        runTasks_flagsOf_not_mem fs sk fo _ Lv B.name
          (by rw [hLvN]; exact hBnotv),
        hstBeq]
      unfold ExecState.flagsOf
      rw [getD_alistSet_self]
      unfold ExecState.flagsOf at hpreflags
      rw [hpreflags]

/-- Complete branch analysis of one step: exactly one of the six branches
fires, each recording its outcome. -/
theorem stepTask_branches (fs : FileSystem) (sk fo : List String)
    (st : ExecState) (t : Task) :
    ((sk.contains t.name = true ∧ ¬ fo.contains t.name = true) ∧
      (stepTask fs sk fo st t).outcomeOf t.name = some Outcome.userSkip) ∨
    (¬ (sk.contains t.name = true ∧ ¬ fo.contains t.name = true) ∧
      checkpointValid fs st.cache t = true ∧
      (stepTask fs sk fo st t).outcomeOf t.name = some Outcome.cacheSkip) ∨
    (¬ (sk.contains t.name = true ∧ ¬ fo.contains t.name = true) ∧
      checkpointValid fs st.cache t = false ∧
      failedDeps st.failures t ≠ [] ∧
      t.if_upstream_errors = UpstreamPolicy.FAIL ∧
      (stepTask fs sk fo st t).outcomeOf t.name = some Outcome.upstreamFail) ∨
    (¬ (sk.contains t.name = true ∧ ¬ fo.contains t.name = true) ∧
      checkpointValid fs st.cache t = false ∧
      failedDeps st.failures t ≠ [] ∧
      t.if_upstream_errors = UpstreamPolicy.SKIP ∧
      (stepTask fs sk fo st t).outcomeOf t.name = some Outcome.upstreamSkip) ∨
    (¬ (sk.contains t.name = true ∧ ¬ fo.contains t.name = true) ∧
      checkpointValid fs st.cache t = false ∧
      failedDeps st.failures t = [] ∧ (∃ v, t.run = some v) ∧
      (stepTask fs sk fo st t).outcomeOf t.name = some Outcome.ranOk) ∨
    (¬ (sk.contains t.name = true ∧ ¬ fo.contains t.name = true) ∧
      checkpointValid fs st.cache t = false ∧
      failedDeps st.failures t = [] ∧ t.run = none ∧
      (stepTask fs sk fo st t).outcomeOf t.name = some Outcome.ranErr) := by
  by_cases hg : (sk.contains t.name = true ∧ ¬ fo.contains t.name = true)
  · refine Or.inl ⟨hg, ?_⟩
    rw [stepTask_userSkip fs sk fo st t hg]
    unfold ExecState.outcomeOf
    simp [alistGet_alistSet_self]
  · by_cases hcv : checkpointValid fs st.cache t = true
    · refine Or.inr (Or.inl ⟨hg, hcv, ?_⟩)
      rw [stepTask_cacheSkip fs sk fo st t hg hcv]
      unfold ExecState.outcomeOf
      simp [alistGet_alistSet_self]
    · have hcv' : checkpointValid fs st.cache t = false := by
        revert hcv
        cases checkpointValid fs st.cache t <;> simp
      by_cases hfd : failedDeps st.failures t = []
      · rcases hr : t.run with _ | v
        · refine Or.inr (Or.inr (Or.inr (Or.inr (Or.inr
            ⟨hg, hcv', hfd, rfl, ?_⟩))))
          rw [stepTask_ranErr fs sk fo st t hg hcv' hfd hr]
          unfold ExecState.outcomeOf
          simp [alistGet_alistSet_self]
        · refine Or.inr (Or.inr (Or.inr (Or.inr (Or.inl
            ⟨hg, hcv', hfd, ⟨v, rfl⟩, ?_⟩))))
          rw [stepTask_ranOk fs sk fo st t v hg hcv' hfd hr]
          unfold ExecState.outcomeOf
          simp [alistGet_alistSet_self]
      · rcases hpol : t.if_upstream_errors with _ | _
        · refine Or.inr (Or.inr (Or.inl ⟨hg, hcv', hfd, rfl, ?_⟩))
          rw [stepTask_upstreamFail fs sk fo st t hg hcv' hfd hpol]
          unfold ExecState.outcomeOf
          simp [alistGet_alistSet_self]
        · refine Or.inr (Or.inr (Or.inr (Or.inl ⟨hg, hcv', hfd, rfl, ?_⟩)))
          rw [stepTask_upstreamSkip fs sk fo st t hg hcv' hfd hpol]
          unfold ExecState.outcomeOf
          simp [alistGet_alistSet_self]

/-- Localization of a successful `execute` at one of its tasks: the task's
final outcome and flags are those of its own step, taken from a pre-state
whose flags entry for the task is untouched, and whatever that step puts
into the failure set survives to the end. -/
theorem execute_localize (p : Pipeline) (fs : FileSystem) (cache : Cache)
    (onC : List String) (force : Bool) (fo sk : List String)
    (initFl : List (String × TaskFlags)) (final : ExecState) (t : Task)
    (hN : (p.tasks.map Task.name).Nodup)
    (ht : t ∈ p.tasks)
    (hexec : p.execute fs cache onC force fo sk initFl = some final) :
    ∃ pre : ExecState,
      final.outcomeOf t.name = (stepTask fs sk fo pre t).outcomeOf t.name ∧
      final.flagsOf t.name = (stepTask fs sk fo pre t).flagsOf t.name ∧
      pre.flagsOf t.name = (alistGet initFl t.name).getD freshFlags ∧
      (∀ n, n ∈ (stepTask fs sk fo pre t).failures → n ∈ final.failures) := by
  obtain ⟨tlist, htl, hfin⟩ := Option.map_eq_some'.mp hexec
  obtain ⟨order, hsch, hmapM⟩ := Option.bind_eq_some.mp htl
  have hkahn : kahn (depsGraph p.tasks).length [] (depsGraph p.tasks)
      = some order := hsch
  have hgnd := depsGraph_keys_nodup p.tasks
  have hond : order.Nodup := kahn_nodup _ _ _ _ hkahn hgnd
  have hmem : t.name ∈ order :=
    kahn_complete _ _ _ _ hkahn (t.name, t.dependency_names)
      (depsGraph_mem p.tasks hN t ht)
  obtain ⟨u, v, horder⟩ := List.append_of_mem hmem
  rw [horder] at hmapM
  obtain ⟨Lu, X, Lv, hLu, hX, hLv, htlist⟩ :=
    mapM_get_task_decomp p.tasks u t.name v tlist hmapM
  have hXt : t = X := by
    have h := get_task_eq p.tasks hN t ht
    rw [h] at hX
    exact Option.some.inj hX
  subst hXt
  have hLuN : Lu.map Task.name = u := mapM_get_task_names p.tasks u Lu hLu
  have hLvN : Lv.map Task.name = v := mapM_get_task_names p.tasks v Lv hLv
  have hond' : (t.name :: (u ++ v)).Nodup :=
    (List.perm_middle).nodup (horder ▸ hond)
  have htnotuv : t.name ∉ u ++ v := (List.nodup_cons.mp hond').1
  have htnotu : t.name ∉ u := fun h => htnotuv (List.mem_append.mpr (Or.inl h))
  have htnotv : t.name ∉ v := fun h => htnotuv (List.mem_append.mpr (Or.inr h))
  have hst0 : ∃ st0 : ExecState, st0 =
      { cache := if force then cache.evictResults else cache, failures := [],
        flags := initFl, outcomes := [], invoked := [], depWarnings := [] } :=
    ⟨_, rfl⟩
  obtain ⟨st0, hst0⟩ := hst0
  have hfout : final.outcomes = (runTasks fs sk fo st0 tlist).outcomes := by
    rw [← hfin, hst0]
  have hffail : final.failures = (runTasks fs sk fo st0 tlist).failures := by
    rw [← hfin, hst0]
  have hfflags : final.flags = (runTasks fs sk fo st0 tlist).flags := by
    rw [← hfin, hst0]
  have hst1 : runTasks fs sk fo st0 tlist
      = runTasks fs sk fo (stepTask fs sk fo (runTasks fs sk fo st0 Lu) t) Lv := by
    rw [htlist, runTasks_append, runTasks]
  refine ⟨runTasks fs sk fo st0 Lu, ?_, ?_, ?_, ?_⟩
  · unfold ExecState.outcomeOf
    rw [hfout]
    have := runTasks_outcomeOf_not_mem fs sk fo
      (stepTask fs sk fo (runTasks fs sk fo st0 Lu) t) Lv t.name
      (by rw [hLvN]; exact htnotv)
    unfold ExecState.outcomeOf at this
    rw [hst1, this]
  · unfold ExecState.flagsOf
    rw [hfflags]
    have := runTasks_flagsOf_not_mem fs sk fo
      (stepTask fs sk fo (runTasks fs sk fo st0 Lu) t) Lv t.name
      (by rw [hLvN]; exact htnotv)
    unfold ExecState.flagsOf at this
    rw [hst1, this]
  · rw [runTasks_flagsOf_not_mem fs sk fo st0 Lu t.name
      (by rw [hLuN]; exact htnotu)]
    unfold ExecState.flagsOf
    rw [hst0]
    rfl
  · intro n hn
    rw [hffail, hst1]
    exact runTasks_failures_mono _ _ _ _ _ _ hn

/-! Digest shape: every SHA-256 hex digest has exactly 64 characters, so no
genuine digest can collide with the 9-character `"HASHERROR"` sentinel. -/

theorem sha256_round_length (st : List Nat) (kw : Nat × Nat) :
    (SHA256.round st kw).length = st.length := by
  unfold SHA256.round
  split
  · simp_all
  · rfl

theorem sha256_foldl_round_length (l : List (Nat × Nat)) (st : List Nat) :
    (l.foldl SHA256.round st).length = st.length := by
  induction l generalizing st with
  | nil => rfl
  | cons kw l ih => rw [List.foldl_cons, ih, sha256_round_length]

theorem sha256_processBlock_length (h block : List Nat) :
    (SHA256.processBlock h block).length = h.length := by
  unfold SHA256.processBlock
  rw [List.length_map, List.length_zip, sha256_foldl_round_length]
  simp

theorem sha256_processBlocks_length (fuel : Nat) (h msg : List Nat) :
    (SHA256.processBlocks fuel h msg).length = h.length := by
  induction fuel generalizing h msg with
  | zero => rfl
  | succ f ih =>
      unfold SHA256.processBlocks
      match msg with
      | [] => rfl
      | b :: rest =>
          rw [ih, sha256_processBlock_length]

theorem sha256_hexflat_length (l : List Nat) :
    ((l.map SHA256.toHex8).flatten).length = 8 * l.length := by
  induction l with
  | nil => rfl
  | cons a l ih =>
      simp only [List.map_cons, List.flatten_cons, List.length_append, ih]
      show (SHA256.toHex8 a).length + 8 * l.length = 8 * (a :: l).length
      rw [show (SHA256.toHex8 a).length = 8 from rfl]
      simp [Nat.mul_succ, Nat.mul_add]
      omega

theorem sha256hex_length (m : List Nat) :
    (SHA256.sha256hex m).length = 64 := by
  unfold SHA256.sha256hex
  show (String.mk _).length = 64
  unfold String.length
  simp only [sha256_hexflat_length, sha256_processBlocks_length]
  rfl

/-- The post-run `None`-cleanup removes every stored `None`. -/
theorem cleanupNone_resultEntry (c : Cache) (k : String) :
    (cleanupNone c).resultEntry k ≠ some PyVal.vnone := by
  intro h
  have hmem := alistGet_mem _ _ _ h
  unfold cleanupNone at hmem
  simp only at hmem
  have := (List.mem_filter.mp hmem).2
  simp at this

/-! ## Claim theorems -/

/-- C5: for every task and cache state, the checkpoint-validity decision
used by `execute` (lines 202–217 of `_pipeline.py`) holds iff a result
entry exists for the task's name with a non-`None` value (a stored `None`
is indistinguishable from an absent entry for `cache.get`) AND the paired
hashes entry exists and its `script` and `inputs` both equal the task's
freshly computed hashes; any mismatch or absence invalidates. -/
theorem claim_C5_checkpoint_valid_iff (fs : FileSystem) (c : Cache)
    (t : Task) :
    checkpointValid fs c t = true ↔
      ((∃ v, c.resultEntry t.name = some v ∧ v ≠ PyVal.vnone) ∧
        ∃ hp, c.getHashes t.name = some hp ∧
          hp.script = t.script_hash fs ∧ hp.inputs = t.inputs_hash fs) := by
  simp only [checkpointValid, Cache.getResult, Cache.resultEntry]
  rcases hh : c.getHashes t.name with _ | hp
  · simp [hh]
  · rcases hr : alistGet c.results t.name with _ | v
    · simp [hh, hr]
    · by_cases hv : v = PyVal.vnone
      · subst hv
        simp [hh, hr]
      · simp only [hh, hr, Option.getD_some, Bool.and_eq_true, bne_iff_ne,
          ne_eq, beq_iff_eq, Option.some.injEq]
        constructor
        · rintro ⟨⟨hvne, hin⟩, hsc⟩
          exact ⟨⟨v, rfl, hvne⟩, hp, rfl, hsc, hin⟩
        · rintro ⟨⟨w, hw, hwne⟩, hp', hhp', hsc, hin⟩
          cases hw
          cases hhp'
          exact ⟨⟨hwne, hin⟩, hsc⟩

/-- C9: a stored `None` result is treated as an absent entry: it never
validates a checkpoint (the task is never `SKIPPED_CACHED` and, when not
explicitly skipped and free of failed FAIL-dependencies, its `run` is
invoked again); and when the pipeline is configured with
`expire_results_if_none`, no `None` result survives the post-run
cleanup of `execute`. -/
theorem claim_C9_none_result_invalidates :
    (∀ (fs : FileSystem) (c : Cache) (t : Task),
      c.resultEntry t.name = some PyVal.vnone →
      checkpointValid fs c t = false) ∧
    (∀ (fs : FileSystem) (sk fo : List String) (st : ExecState) (t : Task),
      st.cache.resultEntry t.name = some PyVal.vnone →
      (stepTask fs sk fo st t).outcomeOf t.name ≠ some Outcome.cacheSkip) ∧
    (∀ (fs : FileSystem) (sk fo : List String) (st : ExecState) (t : Task),
      st.cache.resultEntry t.name = some PyVal.vnone →
      ¬ (sk.contains t.name = true ∧ ¬ fo.contains t.name = true) →
      failedDeps st.failures t = [] →
      t.name ∈ (stepTask fs sk fo st t).invoked) ∧
    (∀ (p : Pipeline) (fs : FileSystem) (cache : Cache) (onC : List String)
      (force : Bool) (fo sk : List String)
      (initFl : List (String × TaskFlags)) (final : ExecState) (k : String),
      p.expire_results_if_none = true →
      p.execute fs cache onC force fo sk initFl = some final →
      final.cache.resultEntry k ≠ some PyVal.vnone) := by
  have hvalid : ∀ (fs : FileSystem) (c : Cache) (t : Task),
      c.resultEntry t.name = some PyVal.vnone →
      checkpointValid fs c t = false := by
    intro fs c t h
    simp only [checkpointValid, Cache.getResult, Cache.resultEntry] at *
    rw [h]
    simp
  refine ⟨hvalid, ?_, ?_, ?_⟩
  · intro fs sk fo st t h hc
    rcases stepTask_branches fs sk fo st t with
      ⟨_, ho⟩ | ⟨_, hcv, ho⟩ | ⟨_, _, _, _, ho⟩ | ⟨_, _, _, _, ho⟩ |
      ⟨_, _, _, _, ho⟩ | ⟨_, _, _, _, ho⟩ <;>
      rw [ho] at hc
    · cases hc
    · rw [hvalid fs st.cache t h] at hcv
      cases hcv
    all_goals cases hc
  · intro fs sk fo st t h hg hfd
    rcases hr : t.run with _ | v
    · rw [stepTask_ranErr fs sk fo st t hg (hvalid fs st.cache t h) hfd hr]
      simp
    · rw [stepTask_ranOk fs sk fo st t v hg (hvalid fs st.cache t h) hfd hr]
      simp
  · intro p fs cache onC force fo sk initFl final k hexp hexec
    obtain ⟨tlist, htl, hfin⟩ := Option.map_eq_some'.mp hexec
    have hc : final.cache = cleanupNone
        (onC.foldl (fun c k => c.deleteResult k)
          (runTasks fs sk fo
            { cache := if force then cache.evictResults else cache,
              failures := [], flags := initFl, outcomes := [], invoked := [],
              depWarnings := [] } tlist).cache) := by
      rw [← hfin]
      show (if p.expire_results_if_none = true then _ else _) = _
      rw [if_pos hexp]
    rw [hc]
    exact cleanupNone_resultEntry _ k

/-- C9 witness: the stored `None` for task `"N"` does not validate its
checkpoint (its hashes are unchanged!), the step is not a cache skip, its
`run` is invoked, and after `execute` no `None` result remains. -/
theorem claim_C9_witness :
    checkpointValid fsNone cacheC9 taskC9 = false ∧
    (stepTask fsNone [] [] stateC9 taskC9).outcomeOf taskC9.name
      ≠ some Outcome.cacheSkip ∧
    taskC9.name ∈ (stepTask fsNone [] [] stateC9 taskC9).invoked ∧
    finalC9.cache.resultEntry "N" ≠ some PyVal.vnone :=
  ⟨claim_C9_none_result_invalidates.1 fsNone cacheC9 taskC9 (by decide),
   claim_C9_none_result_invalidates.2.1 fsNone [] [] stateC9 taskC9 (by decide),
   claim_C9_none_result_invalidates.2.2.1 fsNone [] [] stateC9 taskC9
     (by decide) (by decide) (by decide),
   claim_C9_none_result_invalidates.2.2.2 pipeC9 fsNone cacheC9 [] false [] []
     [] finalC9 "N" rfl (by decide)⟩

/-- C3 (amended): a task present in both `skip_tasks` and `force_tasks` is
not explicitly skipped (force neutralizes the skip), but the per-task
force does not bypass the cached-result check: with a valid checkpoint the
task is `SKIPPED_CACHED`; its `run` is invoked only when no valid
checkpoint exists (and no FAIL/SKIP dependency handling intervenes). -/
theorem claim_C3_amended (fs : FileSystem) (sk fo : List String)
    (st : ExecState) (t : Task) (h1 : t.name ∈ sk) (h2 : t.name ∈ fo) :
    ((stepTask fs sk fo st t).outcomeOf t.name ≠ some Outcome.userSkip) ∧
    (checkpointValid fs st.cache t = true →
      (stepTask fs sk fo st t).outcomeOf t.name = some Outcome.cacheSkip) ∧
    (checkpointValid fs st.cache t = false → failedDeps st.failures t = [] →
      t.name ∈ (stepTask fs sk fo st t).invoked) := by
  have hg : ¬ (sk.contains t.name = true ∧ ¬ fo.contains t.name = true) := by
    intro hc
    exact hc.2 (by simpa [List.elem_iff] using h2)
  refine ⟨?_, ?_, ?_⟩
  · intro h
    rcases stepTask_branches fs sk fo st t with
      ⟨hgg, _⟩ | ⟨_, _, ho⟩ | ⟨_, _, _, _, ho⟩ | ⟨_, _, _, _, ho⟩ |
      ⟨_, _, _, _, ho⟩ | ⟨_, _, _, _, ho⟩
    · exact hg hgg
    all_goals rw [ho] at h
    all_goals cases h
  · intro hcv
    rw [stepTask_cacheSkip fs sk fo st t hg hcv]
    unfold ExecState.outcomeOf
    simp [alistGet_alistSet_self]
  · intro hcv hfd
    rcases hr : t.run with _ | v
    · rw [stepTask_ranErr fs sk fo st t hg hcv hfd hr]
      simp
    · rw [stepTask_ranOk fs sk fo st t v hg hcv hfd hr]
      simp

/-- C3 counterexample: `"T"` is in both `skip_tasks` and `force_tasks` and
has a valid checkpoint; `execute` leaves it `SKIPPED_CACHED` and never
invokes its `run` — refuting "the task's run operation is invoked during
that execute ... regardless of whether a valid checkpoint exists". -/
theorem claim_C3_counterexample :
    pipeC3.execute fsNone cacheC3 [] false ["T"] ["T"] [] = some finalC3 ∧
    checkpointValid fsNone cacheC3 taskC3 = true ∧
    taskC3.run = some (PyVal.vstr "new") ∧
    finalC3.outcomeOf "T" = some Outcome.cacheSkip ∧
    "T" ∉ finalC3.invoked ∧
    (finalC3.flagsOf "T").executed = false := by
  decide

/-- C3 witness: the amended claim applied to the concrete fixture without a
valid checkpoint — force wins over skip and the task's run is invoked. -/
theorem claim_C3_witness :
    ((stepTask fsNone ["T"] ["T"] stateC3w taskC3).outcomeOf taskC3.name
      ≠ some Outcome.userSkip) ∧
    (checkpointValid fsNone stateC3w.cache taskC3 = true →
      (stepTask fsNone ["T"] ["T"] stateC3w taskC3).outcomeOf taskC3.name
        = some Outcome.cacheSkip) ∧
    (checkpointValid fsNone stateC3w.cache taskC3 = false →
      failedDeps stateC3w.failures taskC3 = [] →
      taskC3.name ∈ (stepTask fsNone ["T"] ["T"] stateC3w taskC3).invoked) :=
  claim_C3_amended fsNone ["T"] ["T"] stateC3w taskC3 (by decide) (by decide)

/-- C2 (amended): when a file cannot be opened or read, `hash_file`
returns the distinguished `"HASHERROR"` digest instead of raising; since a
genuine digest always has 64 characters and the sentinel has 9, a
checkpoint whose stored *script* hash is a genuine digest is invalidated
once the script becomes unreadable.  (A checkpoint stored while the source
was *already* unreadable embeds the sentinel itself and can remain valid —
see the counterexample.) -/
theorem claim_C2_amended :
    (∀ (fs : FileSystem) (pth : String), fs pth = none →
      hash_file fs pth = "HASHERROR") ∧
    (∀ (fs : FileSystem) (c : Cache) (t : Task) (sp : String)
      (hp : HashPair) (m : List Nat),
      t.script_path = some sp → fs sp = none →
      c.getHashes t.name = some hp → hp.script = SHA256.sha256hex m →
      checkpointValid fs c t = false) := by
  constructor
  · intro fs pth h
    unfold hash_file
    rw [h]
  · intro fs c t sp hp m hsp hfs hget hscript
    have hsh : t.script_hash fs = "HASHERROR" := by
      unfold Task.script_hash
      rw [hsp]
      show hash_file fs sp = "HASHERROR"
      unfold hash_file
      rw [hfs]
    have hne : (hp.script == t.script_hash fs) = false := by
      rw [hsh, hscript]
      simp only [beq_eq_false_iff_ne, ne_eq]
      intro heq
      have hlen := sha256hex_length m
      rw [heq] at hlen
      exact absurd hlen (by decide)
    simp only [checkpointValid, hget]
    rw [hne]
    simp

/-- C2 counterexample: with `"data.csv"` and `"script.py"` unreadable both
at store time and now, the freshly computed hashes equal the stored
sentinel-based ones, the checkpoint is **valid**, and the task is
`SKIPPED_CACHED` without re-running — refuting "this guarantees that any
previously stored checkpoint for that task is invalidated (the task
re-executes on the next run rather than being SKIPPED_CACHED)". -/
theorem claim_C2_counterexample :
    fsNone "data.csv" = none ∧ fsNone "script.py" = none ∧
    checkpointValid fsNone cacheC2 taskC2 = true ∧
    (stepTask fsNone [] [] stateC2 taskC2).outcomeOf "C"
      = some Outcome.cacheSkip ∧
    "C" ∉ (stepTask fsNone [] [] stateC2 taskC2).invoked := by
  decide

/-- C2 witness: the amended claim at a concrete input. -/
theorem claim_C2_witness :
    hash_file fsNone "s.py" = "HASHERROR" ∧
    checkpointValid fsNone cacheC2w taskC2w = false :=
  ⟨claim_C2_amended.1 fsNone "s.py" rfl,
   claim_C2_amended.2 fsNone cacheC2w taskC2w "s.py"
     { script := SHA256.sha256hex (strBytes "print(1)"), inputs := "" }
     (strBytes "print(1)") rfl rfl (by decide) rfl⟩

/-- C4: the code is wrong.  `Task._inputs_hash` rebinds `h =
hash_files(inp)` on every loop iteration, so the inputs hash is the digest
of the **last** listed file alone: changing the first file's content (its
own digest provably changes) leaves the inputs hash identical, while the
digest-of-concatenated-digests that the spec describes
(`hash_files(*input_files)`) does change. -/
theorem claim_C4_code_bug :
    fsC4a "a.txt" ≠ fsC4b "a.txt" ∧
    fsC4a "b.txt" = fsC4b "b.txt" ∧
    hash_file fsC4a "a.txt" ≠ hash_file fsC4b "a.txt" ∧
    Task.inputs_hash fsC4a taskC4 = Task.inputs_hash fsC4b taskC4 ∧
    Task.inputs_hash fsC4a taskC4 = hash_files fsC4a ["b.txt"] ∧
    hash_files fsC4a ["a.txt", "b.txt"] ≠ hash_files fsC4b ["a.txt", "b.txt"]
    := by
  set_option maxRecDepth 4000 in decide

/-- C8: the code is wrong.  Two distinct tasks with the same name are
accepted by `add` and silently collapse into a single scheduler node (the
dict comprehension dedups by name); `get_task` resolves to the most
recently added task, `execute` succeeds without any error, runs one task
and stores its result — no error is ever raised. -/
theorem claim_C8_code_bug :
    taskC8a ≠ taskC8b ∧
    schedule [taskC8a, taskC8b] = some ["T"] ∧
    orderedTasks [taskC8a, taskC8b] = some [taskC8b] ∧
    pipeC8.execute fsNone cache0 [] false [] [] [] = some finalC8 ∧
    finalC8.outcomes = [("T", Outcome.ranOk)] ∧
    finalC8.cache.resultEntry "T" = some (PyVal.vstr "second") := by
  decide

/-- C1 (amended): if a declared dependency of B raised during `run` in
this execute, B's policy is FAIL, and B is neither explicitly skipped
(skip minus force) nor validly checkpointed, then B ends in
SKIPPED_UPSTREAM_FAILED: the caught DependencyFailure adds B to the
failure set, B's `run` is never invoked, its flags stay fresh
(executed = skipped = false), and the pipeline still visits every task. -/
theorem claim_C1_amended (p : Pipeline) (fs : FileSystem) (cache : Cache)
    (onC : List String) (force : Bool) (fo sk : List String)
    (initFl : List (String × TaskFlags)) (final : ExecState)
    (B : Task) (aname : String)
    (hN : (p.tasks.map Task.name).Nodup)
    (hB : B ∈ p.tasks) (hdep : aname ∈ B.dependency_names)
    (hpol : B.if_upstream_errors = UpstreamPolicy.FAIL)
    (hexec : p.execute fs cache onC force fo sk initFl = some final)
    (hAfail : final.outcomeOf aname = some Outcome.ranErr)
    (hskip : ¬ (B.name ∈ sk ∧ B.name ∉ fo))
    (hcv : checkpointValid fs (if force then cache.evictResults else cache) B
      = false)
    (hfresh : alistGet initFl B.name = none) :
    final.outcomeOf B.name = some Outcome.upstreamFail ∧
    B.name ∈ final.failures ∧
    B.name ∉ final.invoked ∧
    final.flagsOf B.name = freshFlags ∧
    (∀ t ∈ p.tasks, final.outcomeOf t.name ≠ none) := by
  obtain ⟨h1, h2, h3, h4⟩ :=
    (execute_upstream_blocked p fs cache onC force fo sk initFl final B aname
      hN hB hdep hexec hAfail hskip hcv).1 hpol
  refine ⟨h1, h2, h3, ?_, ?_⟩
  · rw [h4, hfresh]
    rfl
  · intro t ht
    exact execute_visits_all p fs cache onC force fo sk initFl final hN hexec
      t ht

/-- C1 counterexample: A raises during `run`, B depends on A with policy
FAIL — but B holds a valid checkpoint, so B ends `SKIPPED_CACHED`, not
SKIPPED_UPSTREAM_FAILED (the cached-result check precedes the dependency
check), refuting the claim as universally stated. -/
theorem claim_C1_counterexample :
    pipeC1.execute fsNone cacheC1 [] false [] [] [] = some finalC1 ∧
    taskC1A.run = none ∧
    finalC1.outcomeOf "A" = some Outcome.ranErr ∧
    "A" ∈ finalC1.failures ∧
    finalC1.outcomeOf "B" = some Outcome.cacheSkip ∧
    finalC1.outcomeOf "B" ≠ some Outcome.upstreamFail ∧
    "B" ∉ finalC1.failures := by
  decide

/-- C1 witness: the amended claim at a concrete input. -/
theorem claim_C1_witness :
    finalC1w.outcomeOf "B" = some Outcome.upstreamFail ∧
    "B" ∈ finalC1w.failures ∧
    "B" ∉ finalC1w.invoked ∧
    finalC1w.flagsOf "B" = freshFlags ∧
    (∀ t ∈ pipeC1w.tasks, finalC1w.outcomeOf t.name ≠ none) :=
  claim_C1_amended pipeC1w fsNone cache0 [] false [] [] [] finalC1w taskC1B
    "A" (by decide) (by decide) (by decide) (by decide) (by decide)
    (by decide) (by decide) (by decide) (by decide)

/-- C6 (amended): for a SKIP-policy task with a failed dependency (not
explicitly skipped, no valid checkpoint), `check_failed_dependencies` logs
its warning and returns True, and `execute` then marks the task *skipped*
without invoking its `run` — the task is not executed and is not added to
the failure set. -/
theorem claim_C6_amended (p : Pipeline) (fs : FileSystem) (cache : Cache)
    (onC : List String) (force : Bool) (fo sk : List String)
    (initFl : List (String × TaskFlags)) (final : ExecState)
    (B : Task) (aname : String)
    (hN : (p.tasks.map Task.name).Nodup)
    (hB : B ∈ p.tasks) (hdep : aname ∈ B.dependency_names)
    (hpol : B.if_upstream_errors = UpstreamPolicy.SKIP)
    (hexec : p.execute fs cache onC force fo sk initFl = some final)
    (hAfail : final.outcomeOf aname = some Outcome.ranErr)
    (hskip : ¬ (B.name ∈ sk ∧ B.name ∉ fo))
    (hcv : checkpointValid fs (if force then cache.evictResults else cache) B
      = false)
    (hfresh : alistGet initFl B.name = none) :
    final.outcomeOf B.name = some Outcome.upstreamSkip ∧
    B.name ∈ final.depWarnings ∧
    B.name ∉ final.invoked ∧
    B.name ∉ final.failures ∧
    final.flagsOf B.name = { freshFlags with skipped := true } := by
  obtain ⟨h1, h2, h3, h4, h5⟩ :=
    (execute_upstream_blocked p fs cache onC force fo sk initFl final B aname
      hN hB hdep hexec hAfail hskip hcv).2 hpol
  refine ⟨h1, h4, h3, h2, ?_⟩
  rw [h5, hfresh]
  rfl

/-- C6 counterexample: B's SKIP policy with a failed dependency logs the
warning but does NOT invoke B's `run` — B is marked skipped (Python's
`continue` skips the task), refuting "still invokes the task's run
operation (the task executes anyway rather than being skipped)". -/
theorem claim_C6_counterexample :
    pipeC6.execute fsNone cache0 [] false [] [] [] = some finalC6 ∧
    taskC6B.run = some (PyVal.vstr "bv") ∧
    finalC6.outcomeOf "A" = some Outcome.ranErr ∧
    finalC6.outcomeOf "B" = some Outcome.upstreamSkip ∧
    "B" ∈ finalC6.depWarnings ∧
    "B" ∉ finalC6.invoked ∧
    (finalC6.flagsOf "B").skipped = true ∧
    (finalC6.flagsOf "B").executed = false := by
  decide

/-- C6 witness: the amended claim at a concrete input. -/
theorem claim_C6_witness :
    finalC6.outcomeOf "B" = some Outcome.upstreamSkip ∧
    "B" ∈ finalC6.depWarnings ∧
    "B" ∉ finalC6.invoked ∧
    "B" ∉ finalC6.failures ∧
    finalC6.flagsOf "B" = { freshFlags with skipped := true } :=
  claim_C6_amended pipeC6 fsNone cache0 [] false [] [] [] finalC6 taskC6B
    "A" (by decide) (by decide) (by decide) (by decide) (by decide)
    (by decide) (by decide) (by decide) (by decide)

/-- C10: in a single `execute` over freshly constructed tasks (all flags
start `False`; the loop's commented-out reset lines never run), every task
that fails — its `run` raised (`ranErr`) or its FAIL-policy dependency
check raised (`upstreamFail`) — ends with `is_executed = false`,
`is_skipped = false` and its name in `failures`; consequently no task ends
with `executed` and `skipped` both true. -/
theorem claim_C10_failed_task_flags (p : Pipeline) (fs : FileSystem)
    (cache : Cache) (onC : List String) (force : Bool) (fo sk : List String)
    (final : ExecState)
    (hN : (p.tasks.map Task.name).Nodup)
    (hexec : p.execute fs cache onC force fo sk [] = some final) :
    (∀ t ∈ p.tasks,
      (final.outcomeOf t.name = some Outcome.ranErr ∨
        final.outcomeOf t.name = some Outcome.upstreamFail) →
      (final.flagsOf t.name).executed = false ∧
      (final.flagsOf t.name).skipped = false ∧
      t.name ∈ final.failures) ∧
    (∀ t ∈ p.tasks,
      ¬ ((final.flagsOf t.name).executed = true ∧
        (final.flagsOf t.name).skipped = true)) := by
  constructor
  · intro t ht hout
    obtain ⟨pre, hout_eq, hflags_eq, hpre_flags, hfail_sub⟩ :=
      execute_localize p fs cache onC force fo sk [] final t hN ht hexec
    have hpre_flags' : pre.flagsOf t.name = freshFlags := hpre_flags
    rcases hout with hout | hout <;>
      rw [hout_eq] at hout
    · obtain ⟨hfeq, hfl⟩ := stepTask_fail_inv fs sk fo pre t Outcome.ranErr
        hout (Or.inl rfl)
      refine ⟨?_, ?_, ?_⟩
      · rw [hflags_eq, hfl, hpre_flags']
        rfl
      · rw [hflags_eq, hfl, hpre_flags']
        rfl
      · apply hfail_sub
        rw [hfeq]
        simp
    · obtain ⟨hfeq, hfl⟩ := stepTask_fail_inv fs sk fo pre t
        Outcome.upstreamFail hout (Or.inr rfl)
      refine ⟨?_, ?_, ?_⟩
      · rw [hflags_eq, hfl, hpre_flags']
        rfl
      · rw [hflags_eq, hfl, hpre_flags']
        rfl
      · apply hfail_sub
        rw [hfeq]
        simp
  · intro t ht
    obtain ⟨pre, _, hflags_eq, hpre_flags, _⟩ :=
      execute_localize p fs cache onC force fo sk [] final t hN ht hexec
    have hpre_flags' : pre.flagsOf t.name = freshFlags := hpre_flags
    rcases stepTask_flags_shape fs sk fo pre t with h | h | h <;>
      rw [hflags_eq, h, hpre_flags'] <;>
      simp [freshFlags]

/-- C10 witness: in the concrete two-task pipeline where A raises and B's
FAIL-policy dependency check raises, both failing tasks end unexecuted,
unskipped and in the failure set, and no task has both flags set. -/
theorem claim_C10_witness :
    (∀ t ∈ pipeC1w.tasks,
      (finalC1w.outcomeOf t.name = some Outcome.ranErr ∨
        finalC1w.outcomeOf t.name = some Outcome.upstreamFail) →
      (finalC1w.flagsOf t.name).executed = false ∧
      (finalC1w.flagsOf t.name).skipped = false ∧
      t.name ∈ finalC1w.failures) ∧
    (∀ t ∈ pipeC1w.tasks,
      ¬ ((finalC1w.flagsOf t.name).executed = true ∧
        (finalC1w.flagsOf t.name).skipped = true)) :=
  claim_C10_failed_task_flags pipeC1w fsNone cache0 [] false [] [] finalC1w
    (by decide) (by decide)

/-! Support lemmas for the weekly expiration policy. -/

theorem dtLt_iff (a b : DateTime) :
    dtLt a b = true ↔ (a.day < b.day ∨ (a.day = b.day ∧ a.micro < b.micro)) := by
  unfold dtLt
  simp [Bool.or_eq_true, Bool.and_eq_true, decide_eq_true_eq, beq_iff_eq]

theorem dtLt_false_iff (a b : DateTime) :
    dtLt a b = false ↔ ¬ (a.day < b.day ∨ (a.day = b.day ∧ a.micro < b.micro)) := by
  rw [Bool.eq_false_iff, Ne, dtLt_iff]

theorem dtLt_lt_le (x z r : DateTime) (h1 : dtLt z x = true)
    (h2 : dtLt z r = false) : dtLt x r = false := by
  rw [dtLt_iff] at h1
  rw [dtLt_false_iff] at h2 ⊢
  omega

theorem dtLt_le_le (x z r : DateTime) (h1 : dtLt z x = false)
    (h2 : dtLt x r = false) : dtLt z r = false := by
  rw [dtLt_false_iff] at h1 h2 ⊢
  omega

theorem foldl_minD_spec :
    ∀ (xs : List DateTime) (x : DateTime),
      (xs.foldl (fun m y => if dtLt y m then y else m) x) ∈ x :: xs ∧
      ∀ y ∈ x :: xs,
        dtLt y (xs.foldl (fun m y => if dtLt y m then y else m) x) = false := by
  intro xs
  induction xs with
  | nil =>
      intro x
      refine ⟨by simp, ?_⟩
      intro y hy
      simp only [List.mem_singleton] at hy
      subst hy
      simp only [List.foldl_nil]
      rw [dtLt_false_iff]
      omega
  | cons z xs ih =>
      intro x
      simp only [List.foldl_cons]
      by_cases hzx : dtLt z x = true
      · obtain ⟨hmem, hmin⟩ := ih z
        rw [if_pos hzx]
        refine ⟨?_, ?_⟩
        · rcases List.mem_cons.mp hmem with h | h
          · rw [h]
            exact List.mem_cons_of_mem _ (List.mem_cons_self _ _)
          · exact List.mem_cons_of_mem _ (List.mem_cons_of_mem _ h)
        · intro y hy
          rcases List.mem_cons.mp hy with hy | hy
          · subst hy
            exact dtLt_lt_le _ z _ hzx (hmin z (List.mem_cons_self _ _))
          · exact hmin y hy
      · obtain ⟨hmem, hmin⟩ := ih x
        rw [if_neg hzx]
        have hzx' : dtLt z x = false := by
          revert hzx
          cases dtLt z x <;> simp
        refine ⟨?_, ?_⟩
        · rcases List.mem_cons.mp hmem with h | h
          · rw [h]
            exact List.mem_cons_self _ _
          · exact List.mem_cons_of_mem _ (List.mem_cons_of_mem _ h)
        · intro y hy
          rcases List.mem_cons.mp hy with hy | hy
          · subst hy
            exact hmin _ (List.mem_cons_self _ _)
          · rcases List.mem_cons.mp hy with hy | hy
            · subst hy
              exact dtLt_le_le x _ _ hzx' (hmin x (List.mem_cons_self _ _))
            · exact hmin y (List.mem_cons_of_mem _ hy)

/-- Model of `_get_next_weekday` on a non-empty tuple returns the least candidate. -/
theorem get_next_weekday_spec (wds : List Nat) (now : DateTime)
    (hne : wds ≠ []) :
    ∃ m, _get_next_weekday wds now = some m ∧
      m ∈ wds.map (nextCandidate now.weekday (_get_midnight now)) ∧
      ∀ y ∈ wds.map (nextCandidate now.weekday (_get_midnight now)),
        dtLt y m = false := by
  match wds, hne with
  | w :: rest, _ =>
      obtain ⟨h1, h2⟩ := foldl_minD_spec
        (rest.map (nextCandidate now.weekday (_get_midnight now)))
        (nextCandidate now.weekday (_get_midnight now) w)
      exact ⟨_, rfl, by simpa using h1, by simpa using h2⟩

theorem daysAhead_facts (nd t : Nat) (ht : t < 7) :
    1 ≤ (if (t + 7 - nd % 7) % 7 = 0 then 7 else (t + 7 - nd % 7) % 7) ∧
    (if (t + 7 - nd % 7) % 7 = 0 then 7 else (t + 7 - nd % 7) % 7) ≤ 7 ∧
    (nd + (if (t + 7 - nd % 7) % 7 = 0 then 7 else (t + 7 - nd % 7) % 7)) % 7
      = t := by
  by_cases h : (t + 7 - nd % 7) % 7 = 0 <;> simp [h] <;> omega

theorem daysAhead_min (nd dd t : Nat) (ht : t < 7) (hlt : nd < dd)
    (hdd : dd % 7 = t) :
    nd + (if (t + 7 - nd % 7) % 7 = 0 then 7 else (t + 7 - nd % 7) % 7)
      ≤ dd := by
  by_cases h : (t + 7 - nd % 7) % 7 = 0 <;> simp [h] <;> omega

/-- Model of `_seconds_until` between two midnights is whole days times 86400. -/
theorem seconds_until_midnights (dd nd : Nat) (h : nd ≤ dd) :
    _seconds_until { day := dd, micro := 0 } { day := nd, micro := 0 }
      = ((dd - nd : Nat) * 86400 : Nat) := by
  unfold _seconds_until
  show (((dd : Int) - (nd : Int)) * (microPerDay : Int)
      + ((0 : Int) - (0 : Int))).tdiv 1000000 = _
  unfold microPerDay
  rw [show ((dd : Int) - nd) * ((86400000000 : Nat) : Int) + ((0 : Int) - 0)
      = (((dd : Int) - nd) * 86400) * 1000000 from by push_cast; ring]
  rw [Int.mul_tdiv_cancel _ (by norm_num)]
  push_cast [h]
  ring

theorem _parse_weekday_lt7 (s : String) (n : Nat)
    (h : _parse_weekday s = some n) : n < 7 := by
  unfold _parse_weekday weekdayKeys at h
  simp only [List.findIdx?_cons, List.findIdx?_nil] at h
  repeat' split at h
  all_goals simp_all
  all_goals omega

theorem mapM_parse_lt7 (days : List String) :
    ∀ (wds : List Nat), days.mapM _parse_weekday = some wds →
      ∀ w ∈ wds, w < 7 := by
  induction days with
  | nil =>
      intro wds h w hw
      simp only [List.mapM_nil, Option.pure_def, Option.some.injEq] at h
      rw [← h] at hw
      cases hw
  | cons d rest ih =>
      intro wds h w hw
      rw [List.mapM_cons] at h
      simp only [Option.pure_def, Option.bind_eq_bind, Option.bind_eq_some] at h
      obtain ⟨x, hx, l', hl', hres⟩ := h
      have hres' : x :: l' = wds := by injection hres
      rw [← hres'] at hw
      rcases List.mem_cons.mp hw with hw | hw
      · subst hw
        exact _parse_weekday_lt7 d w hx
      · exact ih l' hl' w hw

/-- Midnight-to-midnight seconds. -/
theorem seconds_until_of_midnights (a b : DateTime) (ha : a.micro = 0)
    (hb : b.micro = 0) (h : b.day ≤ a.day) :
    _seconds_until a b = ((a.day - b.day) * 86400 : Nat) := by
  cases a with
  | mk ad am =>
      cases b with
      | mk bd bm =>
          simp only at ha hb h
          subst ha
          subst hb
          exact seconds_until_midnights ad bd h

/-- C7: for every `now` and non-empty tuple of parsed target weekdays, the
weekly policy returns the seconds until `_get_next_weekday`'s result,
which is a target-weekday midnight strictly in the future and the earliest
such; evaluated exactly at a midnight it is strictly positive (never
zero), and at a target weekday's own midnight with a singleton tuple it is
exactly the following week's occurrence, 604800 seconds away. -/
theorem claim_C7_weekly_strictly_future (days : List String) (wds : List Nat)
    (now : DateTime)
    (hparse : days.mapM _parse_weekday = some wds)
    (hne : wds ≠ [])
    (hmicro : now.micro < microPerDay) :
    ∃ m : DateTime,
      _get_next_weekday wds now = some m ∧
      weekly days now = some (_seconds_until m now) ∧
      m.micro = 0 ∧
      m.day % 7 ∈ wds ∧
      dtLt now m = true ∧
      (∀ d : DateTime, d.micro = 0 → d.day % 7 ∈ wds →
        dtLt now d = true → m.day ≤ d.day) ∧
      (now.micro = 0 → 0 < _seconds_until m now) ∧
      (now.micro = 0 → wds = [now.weekday] →
        m.day = now.day + 7 ∧ _seconds_until m now = 604800) := by
  have h7 := mapM_parse_lt7 days wds hparse
  obtain ⟨m, hm, hmem, hmin⟩ := get_next_weekday_spec wds now hne
  obtain ⟨t, htw, hteq⟩ := List.mem_map.mp hmem
  have ht7 : t < 7 := h7 t htw
  obtain ⟨D, hDdef⟩ : ∃ D, D = (if (t + 7 - now.day % 7) % 7 = 0 then 7
      else (t + 7 - now.day % 7) % 7) := ⟨_, rfl⟩
  have hda := daysAhead_facts now.day t ht7
  rw [← hDdef] at hda
  obtain ⟨hda1, hda7, hdamod⟩ := hda
  have hmday : m.day = now.day + D := by
    rw [← hteq, hDdef]
    rfl
  have hmmicro : m.micro = 0 := by
    rw [← hteq]
    rfl
  have hweekly : weekly days now = some (_seconds_until m now) := by
    unfold weekly
    rw [hparse]
    show (match _get_next_weekday wds now with
      | none => none
      | some fd => some (_seconds_until fd now)) = some (_seconds_until m now)
    rw [hm]
  refine ⟨m, hm, hweekly, hmmicro, ?_, ?_, ?_, ?_, ?_⟩
  · rw [hmday, hdamod]
    exact htw
  · rw [dtLt_iff]
    omega
  · intro d hd0 hdw hdlt
    have ht07 : d.day % 7 < 7 := Nat.mod_lt _ (by norm_num)
    have hylem := hmin (nextCandidate now.weekday (_get_midnight now) (d.day % 7))
      (List.mem_map.mpr ⟨d.day % 7, hdw, rfl⟩)
    rw [dtLt_false_iff] at hylem
    rw [dtLt_iff] at hdlt
    have hndlt : now.day < d.day := by omega
    have hcle : now.day + (if (d.day % 7 + 7 - now.day % 7) % 7 = 0 then 7
        else (d.day % 7 + 7 - now.day % 7) % 7) ≤ d.day :=
      daysAhead_min now.day d.day (d.day % 7) ht07 hndlt rfl
    have hy_day : (nextCandidate now.weekday (_get_midnight now)
        (d.day % 7)).day = now.day + (if (d.day % 7 + 7 - now.day % 7) % 7 = 0
          then 7 else (d.day % 7 + 7 - now.day % 7) % 7) := rfl
    have hy_micro : (nextCandidate now.weekday (_get_midnight now)
        (d.day % 7)).micro = 0 := rfl
    omega
  · intro h0
    rw [seconds_until_of_midnights m now hmmicro h0 (by omega)]
    have hpos : 0 < (m.day - now.day) * 86400 := by
      have : 1 ≤ m.day - now.day := by omega
      omega
    exact_mod_cast hpos
  · intro h0 hsingle
    have ht : t = now.day % 7 := by
      rw [hsingle] at htw
      simpa [DateTime.weekday] using htw
    have hcond : (t + 7 - now.day % 7) % 7 = 0 := by omega
    have hD7 : D = 7 := by
      rw [hDdef, if_pos hcond]
    have hday : m.day = now.day + 7 := by omega
    refine ⟨hday, ?_⟩
    rw [seconds_until_of_midnights m now hmmicro h0 (by omega)]
    have : m.day - now.day = 7 := by omega
    rw [this]
    norm_num

/-- C7 witness: `weekly(("Monday",))` evaluated exactly at a Monday
midnight (day 7 of the Monday-anchored epoch). -/
theorem claim_C7_witness :
    ∃ m : DateTime,
      _get_next_weekday [0] { day := 7, micro := 0 } = some m ∧
      weekly ["Monday"] { day := 7, micro := 0 }
        = some (_seconds_until m { day := 7, micro := 0 }) ∧
      m.micro = 0 ∧
      m.day % 7 ∈ [0] ∧
      dtLt { day := 7, micro := 0 } m = true ∧
      (∀ d : DateTime, d.micro = 0 → d.day % 7 ∈ [0] →
        dtLt { day := 7, micro := 0 } d = true → m.day ≤ d.day) ∧
      (({ day := 7, micro := 0 } : DateTime).micro = 0 →
        0 < _seconds_until m { day := 7, micro := 0 }) ∧
      (({ day := 7, micro := 0 } : DateTime).micro = 0 →
        [0] = [({ day := 7, micro := 0 } : DateTime).weekday] →
        m.day = ({ day := 7, micro := 0 } : DateTime).day + 7 ∧
          _seconds_until m { day := 7, micro := 0 } = 604800) :=
  claim_C7_weekly_strictly_future ["Monday"] [0] { day := 7, micro := 0 }
    (by decide) (by decide) (by decide)

end LP
